import Mathlib

/-!
Verification development for the SkillChain ledger engine (src/app.py).

The Python source keeps the ledger as a JSON value (a dict with a "blocks"
list) persisted in a single file.  We embed the JSON layer shallowly: JSON
values are the mutual inductive JVal / JArr / JObj below (restricted to the
forms the ledger uses: integers, strings, arrays, objects — the source never
stores null, booleans or floats), the serializer models CPython json.dump
(optionally with indent=2 and sort_keys, as the source uses in save_ledger
and make_block respectively), and the reader models json.load on that
fragment.  SHA-256 itself is treated as an opaque parameter: block hashing
takes sha : String → String (the hex digest of the UTF-8 encoding of the
canonical body string) and document hashing takes shaDoc : List Nat → String
(the hex digest of the raw uploaded bytes); theorems that need
collision-freeness state it as an explicit hypothesis.  Unicode note: the
modelled serializer emits characters at or above 0x20 directly where CPython
(ensure_ascii=True) would escape non-ASCII ones; both encodings decode to
the same value, so round-trip statements are unaffected.
-/

namespace SkillChain

/-! ## Characters used by the JSON serializer model -/

/-- The double-quote character. -/
abbrev qChar : Char := '"'

/-- The backslash character. -/
abbrev bsChar : Char := '\\'

/-- The opening-brace character (code point 123). -/
abbrev obChar : Char := Char.ofNat 123

/-- The closing-brace character (code point 125). -/
abbrev cbChar : Char := Char.ofNat 125

/-- The opening-bracket character. -/
abbrev lbChar : Char := '['

/-- The closing-bracket character. -/
abbrev rbChar : Char := ']'

/-- The newline character. -/
abbrev nlChar : Char := '\n'

/-- The horizontal-tab character. -/
abbrev tabChar : Char := '\t'

/-- The carriage-return character. -/
abbrev crChar : Char := '\r'

/-- The minus-sign character. -/
abbrev minusChar : Char := '-'

/-! ## Decimal rendering of integers (as CPython json.dump prints them) -/

/-- Decimal digits of n, most significant first, prepended to acc.  The
first argument is fuel so the definition is structural (any fuel above n
gives the true digit string). -/
def natCharsAux : Nat → Nat → List Char → List Char
  | 0, _, acc => acc
  | fuel+1, n, acc =>
    if n < 10 then Nat.digitChar n :: acc
    else natCharsAux fuel (n / 10) (Nat.digitChar (n % 10) :: acc)

/-- Decimal digit characters of a natural number, most significant first. -/
def natChars (n : Nat) : List Char := natCharsAux (n + 1) n []

/-- Decimal characters of an integer: optional minus sign, then digits. -/
def intChars (n : Int) : List Char :=
  if n < 0 then minusChar :: natChars n.natAbs else natChars n.toNat

/-! ## JSON string escaping (as CPython json.dump escapes string values) -/

/-- JSON escape of a single character: quote and backslash get a backslash,
the named control characters use their short escapes, the remaining control
characters use a four-hex-digit escape, and everything else passes through. -/
def escChar (c : Char) : List Char :=
  if c = qChar then [bsChar, qChar]
  else if c = bsChar then [bsChar, bsChar]
  else if c = nlChar then [bsChar, 'n']
  else if c = tabChar then [bsChar, 't']
  else if c = crChar then [bsChar, 'r']
  else if c = Char.ofNat 8 then [bsChar, 'b']
  else if c = Char.ofNat 12 then [bsChar, 'f']
  else if c.toNat < 32 then
    [bsChar, 'u', '0', '0', Nat.digitChar (c.toNat / 16), Nat.digitChar (c.toNat % 16)]
  else [c]

/-- JSON escape of a character list. -/
def escChars (cs : List Char) : List Char := cs.flatMap escChar

/-- A JSON string literal: opening quote, escaped body, closing quote. -/
def strChars (s : String) : List Char := qChar :: (escChars s.data ++ [qChar])

/-! ## JSON values (the fragment the ledger uses) -/

mutual

/-- A JSON value of the fragment the ledger persists: integers, strings,
arrays and objects.  (The source never stores null, booleans or floats.) -/
inductive JVal where
  | jint (n : Int)
  | jstr (s : String)
  | jarr (items : JArr)
  | jobj (fields : JObj)
deriving DecidableEq

/-- A list of JSON values (array contents). -/
inductive JArr where
  | nil
  | cons (v : JVal) (tl : JArr)
deriving DecidableEq

/-- An ordered association list of JSON object members.  Order is the dict
insertion order of the Python source. -/
inductive JObj where
  | nil
  | cons (k : String) (v : JVal) (tl : JObj)
deriving DecidableEq

end

/-- First value bound to a key, Python dict.get(key): none when absent. -/
def jget : JObj → String → Option JVal
  | .nil, _ => none
  | .cons k v tl, key => if k = key then some v else jget tl key

/-! ## The serializer (CPython json.dump on the fragment)

ind = none is the compact default (item separator ", ", key separator ": ");
ind = some n is json.dump(obj, indent=n): a newline plus n*level spaces after
every opening bracket and comma, and before the closing bracket. -/

/-- Newline-plus-indentation emitted in indent mode; nothing in compact mode. -/
def jnl (ind : Option Nat) (lvl : Nat) : List Char :=
  match ind with
  | none => []
  | some n => nlChar :: List.replicate (n * lvl) ' '

/-- Separator between consecutive array items or object members. -/
def jsep (ind : Option Nat) (lvl : Nat) : List Char :=
  match ind with
  | none => [',', ' ']
  | some n => ',' :: nlChar :: List.replicate (n * lvl) ' '

mutual

/-- Characters of the serialized value at nesting level lvl. -/
def jdumpV (ind : Option Nat) (lvl : Nat) : JVal → List Char
  | .jint n => intChars n
  | .jstr s => strChars s
  | .jarr .nil => [lbChar, rbChar]
  | .jarr (.cons v tl) =>
    lbChar :: (jnl ind (lvl + 1) ++ jdumpV ind (lvl + 1) v
      ++ jdumpA ind (lvl + 1) tl ++ jnl ind lvl ++ [rbChar])
  | .jobj .nil => [obChar, cbChar]
  | .jobj (.cons k v tl) =>
    obChar :: (jnl ind (lvl + 1) ++ strChars k ++ ':' :: ' ' :: jdumpV ind (lvl + 1) v
      ++ jdumpO ind (lvl + 1) tl ++ jnl ind lvl ++ [cbChar])

/-- Characters of the remaining array items (each preceded by a separator). -/
def jdumpA (ind : Option Nat) (lvl : Nat) : JArr → List Char
  | .nil => []
  | .cons v tl => jsep ind lvl ++ jdumpV ind lvl v ++ jdumpA ind lvl tl

/-- Characters of the remaining object members (each preceded by a separator). -/
def jdumpO (ind : Option Nat) (lvl : Nat) : JObj → List Char
  | .nil => []
  | .cons k v tl => jsep ind lvl ++ strChars k ++ ':' :: ' ' :: jdumpV ind lvl v ++ jdumpO ind lvl tl

end

/-- Serialized string of a JSON value (top level is nesting level 0). -/
def jdumpStr (ind : Option Nat) (v : JVal) : String := String.mk (jdumpV ind 0 v)

/-! ## Canonical block body encoding (make_block's sort_keys dump) -/

/-- Object built from an ordered list of key-value pairs. -/
def objOfList : List (String × JVal) → JObj
  | [] => .nil
  | (k, v) :: tl => .cons k v (objOfList tl)

/-- Code-point lexicographic comparison of character lists, the order Python
compares key strings by in sort_keys. -/
def charsLe : List Char → List Char → Bool
  | [], _ => true
  | _ :: _, [] => false
  | a :: as, b :: bs =>
    if a.toNat < b.toNat then true
    else if b.toNat < a.toNat then false
    else charsLe as bs

/-- Key order used by json.dumps(body, sort_keys=True). -/
def keyLe (a b : String × JVal) : Prop := charsLe a.1.data b.1.data = true

instance : DecidableRel keyLe := fun a b =>
  inferInstanceAs (Decidable (charsLe a.1.data b.1.data = true))

/-- Fields sorted by key name, as json.dumps(body, sort_keys=True) orders them. -/
def sortKeys (ps : List (String × JVal)) : List (String × JVal) := List.insertionSort keyLe ps

/-- Block body fields in the dict insertion order of make_block in app.py:
index, timestamp, issuer, filename, fileHash, prevHash. -/
def bodyFields (index : Nat) (ts issuer filename fileHash prevHash : String) :
    List (String × JVal) :=
  [("index", .jint index), ("timestamp", .jstr ts), ("issuer", .jstr issuer),
   ("filename", .jstr filename), ("fileHash", .jstr fileHash), ("prevHash", .jstr prevHash)]

/-- The body_str of make_block: the compact sorted-keys JSON dump of the six
body fields (blockHash is not yet among them when the dump is taken). -/
def body_str (index : Nat) (ts issuer filename fileHash prevHash : String) : String :=
  jdumpStr none (.jobj (objOfList (sortKeys (bodyFields index ts issuer filename fileHash prevHash))))

/-! ## Blocks and the ledger -/

/-- One ledger block, with exactly the fields make_block in app.py stores. -/
structure Block where
  index : Nat
  timestamp : String
  issuer : String
  filename : String
  fileHash : String
  prevHash : String
  blockHash : String
deriving DecidableEq

/-- The in-memory ledger: the ordered block list of ledger["blocks"]. -/
structure Ledger where
  blocks : List Block
deriving DecidableEq

/-- The genesis sentinel "0"*64 from last_block_hash. -/
def ZERO_DIGEST : String := String.mk (List.replicate 64 '0')

/-- The ledger with no blocks, as ensure_ledger first persists it. -/
def emptyLedger : Ledger := ⟨[]⟩

/-- Tip digest: blockHash of the last block, or the zero sentinel when the
ledger is empty (last_block_hash in app.py). -/
def last_block_hash (l : Ledger) : String :=
  match l.blocks.getLast? with
  | none => ZERO_DIGEST
  | some b => b.blockHash

/-- make_block from app.py: assemble the six body fields, hash the compact
sorted-keys JSON dump of them, and store that digest as blockHash.  The
timestamp (now_iso() in the source) is passed in by the caller; sha models
the SHA-256 hex digest of the UTF-8 bytes of its argument. -/
def make_block (sha : String → String) (index : Nat) (fileHash prevHash : String)
    (issuer : String) (filename : String) (ts : String) : Block :=
  { index := index, timestamp := ts, issuer := issuer, filename := filename,
    fileHash := fileHash, prevHash := prevHash,
    blockHash := sha (body_str index ts issuer filename fileHash prevHash) }

/-- The raw append of the issue handler: ledger["blocks"].append(block).
It is unconditional — the handler performs no check on the block. -/
def appendBlock (l : Ledger) (b : Block) : Ledger := ⟨l.blocks ++ [b]⟩

/-- One issuance request: the uploaded document bytes, the issuer text, the
display filename, and the timestamp now_iso() returned for this request. -/
structure IssueReq where
  doc : List Nat
  issuer : String
  filename : String
  ts : String
deriving DecidableEq

/-- The block the issue handler builds: fileHash is the document digest,
prevHash is the current tip, index is the current length of the block list
(lines 117-122 of app.py).  shaDoc models sha256_bytes. -/
def issuedBlock (sha : String → String) (shaDoc : List Nat → String)
    (l : Ledger) (r : IssueReq) : Block :=
  make_block sha l.blocks.length (shaDoc r.doc) (last_block_hash l) r.issuer r.filename r.ts

/-- The whole issue step of the handler: build the block against the loaded
ledger and append it. -/
def issueStep (sha : String → String) (shaDoc : List Nat → String)
    (l : Ledger) (r : IssueReq) : Ledger :=
  appendBlock l (issuedBlock sha shaDoc l r)

/-- Ledgers reachable from the empty ledger by repeated issue-then-append
steps of the handler. -/
inductive Reachable (sha : String → String) (shaDoc : List Nat → String) : Ledger → Prop where
  | empty : Reachable sha shaDoc emptyLedger
  | step (l : Ledger) (r : IssueReq) :
      Reachable sha shaDoc l → Reachable sha shaDoc (issueStep sha shaDoc l r)

/-! ## Query operations (Verify Certificate handlers) -/

/-- Verify-by-upload (lines 152-159 of app.py): hash the bytes and return the
first block whose fileHash field equals that digest. -/
def findByDocument (shaDoc : List Nat → String) (l : Ledger) (raw : List Nat) : Option Block :=
  l.blocks.find? (fun blk => blk.fileHash == shaDoc raw)

/-- The structured-payload match of the verify handler (line 178 of app.py):
blk["index"] == obj.get("index") and blk["blockHash"] == obj.get("blockHash").
A missing key gives none, which matches no block field. -/
def payloadMatches (obj : JObj) (blk : Block) : Bool :=
  (jget obj "index" == some (.jint (blk.index : Int)))
    && (jget obj "blockHash" == some (.jstr blk.blockHash))

/-- Verify-by-payload: the first block matching the parsed payload object on
both the index and blockHash fields (lines 177-182 of app.py). -/
def findByPayload (l : Ledger) (obj : JObj) : Option Block :=
  l.blocks.find? (payloadMatches obj)

/-! ## Chain validation (modelled from the spec) -/

/-- Failure reasons of the chain validator (spec 4.5). -/
inductive Reason where
  | HashMismatch
  | LinkageBroken
  | IndexGap
  | GenesisInvalid
deriving DecidableEq

/-- Result of the chain validator (spec 4.5). -/
inductive ValidationResult where
  | Valid
  | Invalid (atIndex : Nat) (reason : Reason)
deriving DecidableEq

/-- Recomputed digest of a block: hash of the canonical encoding of its
fields minus blockHash, exactly as make_block computed it. -/
def recomputedHash (sha : String → String) (b : Block) : String :=
  sha (body_str b.index b.timestamp b.issuer b.filename b.fileHash b.prevHash)

/-- Modelled from the spec: the repository has no chain validator (nothing in
src/ walks the chain), so this follows spec 4.5 word for word.  The checks on
one block, in the order the spec lists them: the genesis block needs the zero
prevDigest (GenesisInvalid), every block needs its stored blockDigest to equal
the recomputed digest (HashMismatch), later blocks need prevDigest to equal
the previous stored blockDigest (LinkageBroken), and the index field must
equal the position (IndexGap).  Returns the first failing check, or none. -/
def checkBlockAt (sha : String → String) (b : Block) (i : Nat) (expectedPrev : String) :
    Option Reason :=
  if i = 0 then
    if b.prevHash ≠ expectedPrev then some .GenesisInvalid
    else if b.blockHash ≠ recomputedHash sha b then some .HashMismatch
    else if b.index ≠ i then some .IndexGap
    else none
  else
    if b.blockHash ≠ recomputedHash sha b then some .HashMismatch
    else if b.prevHash ≠ expectedPrev then some .LinkageBroken
    else if b.index ≠ i then some .IndexGap
    else none

/-- Modelled from the spec: walk the blocks in index order carrying the
expected prevDigest, stop at the first failing block. -/
def validateAux (sha : String → String) : List Block → Nat → String → ValidationResult
  | [], _, _ => .Valid
  | b :: rest, i, prev =>
    match checkBlockAt sha b i prev with
    | some r => .Invalid i r
    | none => validateAux sha rest (i + 1) b.blockHash

/-- Modelled from the spec: validate(ledger) of spec 4.5, a pure read-only
walk from index 0 with the zero sentinel as the expected genesis prevDigest. -/
def validate (sha : String → String) (l : Ledger) : ValidationResult :=
  validateAux sha l.blocks 0 ZERO_DIGEST

/-- Expected prevDigest of the block at position j of a walk that started
with expected digest p0: p0 at position 0, the stored blockHash of the
previous block otherwise. -/
def prevAt (bs : List Block) (p0 : String) (j : Nat) : String :=
  if j = 0 then p0
  else
    match bs.get? (j - 1) with
    | some b => b.blockHash
    | none => p0

/-- Expected prevDigest at position i of a ledger: the zero sentinel at the
genesis position, the stored blockHash of the previous block otherwise. -/
def expectedPrevAt (l : Ledger) (i : Nat) : String := prevAt l.blocks ZERO_DIGEST i

/-! ## The JSON reader (json.load on the fragment)

A total recursive-descent reader over the character list, fuelled so it is
structural (the top level passes length + 1 fuel, always enough).  It accepts
the fragment the serializer emits — integers, strings with escapes, arrays,
objects, arbitrary whitespace — and returns none where json.load raises
json.JSONDecodeError.  One divergence: on duplicate object keys CPython keeps
the last binding while this reader keeps both and jget finds the first; no
theorem below depends on duplicate-key inputs. -/

/-- Whitespace characters json.load skips between tokens. -/
def wsChar (c : Char) : Bool := c = ' ' || c = nlChar || c = tabChar || c = crChar

/-- Drop leading whitespace. -/
def dropWs : List Char → List Char
  | [] => []
  | c :: cs => if wsChar c then dropWs cs else c :: cs

/-- Decimal digit test. -/
def digitQ (c : Char) : Bool := 48 ≤ c.toNat && c.toNat ≤ 57

/-- Split off the leading run of decimal digits. -/
def digitsTake : List Char → List Char × List Char
  | [] => ([], [])
  | c :: cs =>
    if digitQ c then
      let (ds, r) := digitsTake cs
      (c :: ds, r)
    else ([], c :: cs)

/-- Value of a digit run, most significant first. -/
def digitsNum (ds : List Char) : Nat := ds.foldl (fun acc c => acc * 10 + (c.toNat - 48)) 0

/-- Value of one hexadecimal digit character. -/
def hexNum (c : Char) : Option Nat :=
  if 48 ≤ c.toNat ∧ c.toNat ≤ 57 then some (c.toNat - 48)
  else if 97 ≤ c.toNat ∧ c.toNat ≤ 102 then some (c.toNat - 87)
  else if 65 ≤ c.toNat ∧ c.toNat ≤ 70 then some (c.toNat - 55)
  else none

/-- Decode a single-character escape (everything but the u form). -/
def escDecode (c : Char) : Option Char :=
  if c = qChar then some qChar
  else if c = bsChar then some bsChar
  else if c = '/' then some '/'
  else if c = 'n' then some nlChar
  else if c = 't' then some tabChar
  else if c = 'r' then some crChar
  else if c = 'b' then some (Char.ofNat 8)
  else if c = 'f' then some (Char.ofNat 12)
  else none

/-- Value of a four-hex-digit escape body. -/
def hex4v (a b c d : Char) : Option Nat :=
  match hexNum a, hexNum b, hexNum c, hexNum d with
  | some va, some vb, some vc, some vd => some ((((va * 16 + vb) * 16 + vc) * 16 + vd))
  | _, _, _, _ => none

/-- Read a string body after the opening quote, unescaping as it goes. -/
def readStrAux (acc : List Char) : (cs : List Char) → Option (String × List Char)
  | [] => none
  | '"' :: cs => some (String.mk acc.reverse, cs)
  | '\\' :: 'u' :: a :: b :: c :: d :: cs =>
    match hex4v a b c d with
    | some n => readStrAux (Char.ofNat n :: acc) cs
    | none => none
  | '\\' :: e :: cs =>
    match escDecode e with
    | some ch => readStrAux (ch :: acc) cs
    | none => none
  | ['\\'] => none
  | c :: cs => readStrAux (c :: acc) cs

/-- Read an integer: optional minus sign, then a nonempty digit run. -/
def readInt : List Char → Option (Int × List Char)
  | [] => none
  | c :: cs =>
    if c = minusChar then
      match digitsTake cs with
      | ([], _) => none
      | (ds, r) => some (-(digitsNum ds : Int), r)
    else
      match digitsTake (c :: cs) with
      | ([], _) => none
      | (ds, r) => some ((digitsNum ds : Int), r)

mutual

/-- Read one JSON value (after skipping leading whitespace). -/
def readVal : Nat → List Char → Option (JVal × List Char)
  | 0, _ => none
  | fuel + 1, cs =>
    match dropWs cs with
    | [] => none
    | c :: r =>
      if c = qChar then
        match readStrAux [] r with
        | some (s, r2) => some (.jstr s, r2)
        | none => none
      else if c = lbChar then
        match dropWs r with
        | [] => none
        | c2 :: r2 =>
          if c2 = rbChar then some (.jarr .nil, r2)
          else
            match readItems fuel (c2 :: r2) with
            | some (items, r3) => some (.jarr items, r3)
            | none => none
      else if c = obChar then
        match dropWs r with
        | [] => none
        | c2 :: r2 =>
          if c2 = cbChar then some (.jobj .nil, r2)
          else
            match readFields fuel (c2 :: r2) with
            | some (fields, r3) => some (.jobj fields, r3)
            | none => none
      else if c = minusChar || digitQ c then
        match readInt (c :: r) with
        | some (n, r2) => some (.jint n, r2)
        | none => none
      else none

/-- Read one-or-more comma-separated array items up to the closing bracket
(the empty array is handled in readVal). -/
def readItems : Nat → List Char → Option (JArr × List Char)
  | 0, _ => none
  | fuel + 1, cs =>
    match readVal fuel cs with
    | none => none
    | some (v, r) =>
      match dropWs r with
      | [] => none
      | c :: r2 =>
        if c = ',' then
          match readItems fuel (dropWs r2) with
          | some (tl, r3) => some (.cons v tl, r3)
          | none => none
        else if c = rbChar then some (.cons v .nil, r2)
        else none

/-- Read one-or-more comma-separated object members up to the closing brace
(the empty object is handled in readVal). -/
def readFields : Nat → List Char → Option (JObj × List Char)
  | 0, _ => none
  | fuel + 1, cs =>
    match dropWs cs with
    | [] => none
    | c :: r =>
      if c = qChar then
        match readStrAux [] r with
        | none => none
        | some (k, r1) =>
          match dropWs r1 with
          | [] => none
          | c2 :: r2 =>
            if c2 = ':' then
              match readVal fuel (dropWs r2) with
              | none => none
              | some (v, r3) =>
                match dropWs r3 with
                | [] => none
                | c3 :: r4 =>
                  if c3 = ',' then
                    match readFields fuel (dropWs r4) with
                    | some (tl, r5) => some (.cons k v tl, r5)
                    | none => none
                  else if c3 = cbChar then some (.cons k v .nil, r4)
                  else none
            else none
      else none

end

/-- Parse a complete JSON document: one value with only whitespace after it.
none models json.JSONDecodeError. -/
def parseJson (s : String) : Option JVal :=
  match readVal (s.data.length + 1) s.data with
  | some (v, r) => if dropWs r = [] then some v else none
  | none => none

/-! ## The persisted representation and the store operations -/

/-- The JSON object a block is stored as, in the handler's dict insertion
order: index, timestamp, issuer, filename, fileHash, prevHash, blockHash. -/
def blockToJVal (b : Block) : JVal :=
  .jobj (.cons "index" (.jint b.index)
    (.cons "timestamp" (.jstr b.timestamp)
      (.cons "issuer" (.jstr b.issuer)
        (.cons "filename" (.jstr b.filename)
          (.cons "fileHash" (.jstr b.fileHash)
            (.cons "prevHash" (.jstr b.prevHash)
              (.cons "blockHash" (.jstr b.blockHash) .nil)))))))

/-- The JSON array of a block list. -/
def blocksToJArr : List Block → JArr
  | [] => .nil
  | b :: tl => .cons (blockToJVal b) (blocksToJArr tl)

/-- The JSON value the ledger is persisted as. -/
def ledgerToJVal (l : Ledger) : JVal :=
  .jobj (.cons "blocks" (.jarr (blocksToJArr l.blocks)) .nil)

/-- The file text save_ledger writes: json.dump(ledger, f, indent=2). -/
def ledgerFileContent (l : Ledger) : String := jdumpStr (some 2) (ledgerToJVal l)

/-- States of the ledger file a concurrent reader (or a crash) can observe
while save_ledger runs: the old content until open(path, "w") truncates the
file, then every prefix of the new text as json.dump streams it out.  There
is no temporary file and no rename in the source — the write happens in
place at the target path. -/
def save_ledger_observable (old : Option String) (l : Ledger) (s : Option String) : Prop :=
  s = old ∨ ∃ p q : String, ledgerFileContent l = p ++ q ∧ s = some p

/-- The error json.load raises on text that is not valid JSON (the only
error path load_ledger has — nothing in app.py checks the parsed shape). -/
inductive LoadErr where
  | jsonDecode
deriving DecidableEq

/-- The JSON value of the empty ledger ensure_ledger first writes. -/
def emptyLedgerJ : JVal := .jobj (.cons "blocks" (.jarr .nil) .nil)

/-- load_ledger of app.py over the modelled file state (none = file absent).
ensure_ledger first writes the empty ledger when the file is absent; then
json.load parses whatever text the file holds and the result is returned
unchecked.  The pair is (returned value, file content afterwards). -/
def load_ledger : Option String → Except LoadErr (JVal × String)
  | none => .ok (emptyLedgerJ, jdumpStr (some 2) emptyLedgerJ)
  | some s =>
    match parseJson s with
    | none => .error .jsonDecode
    | some v => .ok (v, s)

/-- Modelled from the spec: one block of the persisted-ledger schema of spec
section 6 — an object with the seven fields at their stated types (index a
non-negative integer, the rest strings).  none when a field is missing or
has the wrong type. -/
def blockOfJVal (v : JVal) : Option Block :=
  match v with
  | .jobj o =>
    match jget o "index", jget o "timestamp", jget o "issuer", jget o "filename",
        jget o "fileHash", jget o "prevHash", jget o "blockHash" with
    | some (.jint n), some (.jstr ts), some (.jstr issuer), some (.jstr filename),
        some (.jstr fh), some (.jstr ph), some (.jstr bh) =>
      if 0 ≤ n then
        some { index := n.toNat, timestamp := ts, issuer := issuer, filename := filename,
               fileHash := fh, prevHash := ph, blockHash := bh }
      else none
    | _, _, _, _, _, _, _ => none
  | _ => none

/-- Modelled from the spec: the blocks array of the persisted schema. -/
def blocksOfJArr : JArr → Option (List Block)
  | .nil => some []
  | .cons v tl =>
    match blockOfJVal v, blocksOfJArr tl with
    | some b, some bs => some (b :: bs)
    | _, _ => none

/-- Modelled from the spec: the expected shape of persisted data (spec 4.3
and section 6) — an object with a "blocks" array of well-typed blocks whose
index fields are contiguous from 0 (invariant I5).  none is the shape
violation that opens StoreCorruptError in the spec. -/
def ledgerOfJVal (v : JVal) : Option Ledger :=
  match v with
  | .jobj o =>
    match jget o "blocks" with
    | some (.jarr items) =>
      match blocksOfJArr items with
      | some bs => if bs.enum.all (fun p => p.2.index == p.1) then some ⟨bs⟩ else none
      | none => none
    | _ => none
  | _ => none

/-! ## Digit rendering inverts (readInt undoes intChars) -/

theorem digitQ_digitChar {d : Nat} (h : d < 10) : digitQ (Nat.digitChar d) = true := by
  interval_cases d <;> decide

theorem toNat_digitChar {d : Nat} (h : d < 10) : (Nat.digitChar d).toNat - 48 = d := by
  interval_cases d <;> decide

theorem natCharsAux_acc (n : Nat) : ∀ (fuel : Nat) (acc : List Char), n < fuel →
    natCharsAux fuel n acc = natCharsAux fuel n [] ++ acc := by
  induction n using Nat.strongRecOn with
  | ind n ih =>
    intro fuel acc hf
    match fuel with
    | fuel + 1 =>
      rw [natCharsAux, natCharsAux]
      by_cases h : n < 10
      · simp [h]
      · have hrec := ih (n / 10) (by omega) fuel (Nat.digitChar (n % 10) :: acc) (by omega)
        have hrec2 := ih (n / 10) (by omega) fuel [Nat.digitChar (n % 10)] (by omega)
        simp only [if_neg h]
        rw [hrec, hrec2, List.append_assoc]
        rfl

theorem natCharsAux_fuel (n : Nat) : ∀ (f g : Nat), n < f → n < g →
    natCharsAux f n [] = natCharsAux g n [] := by
  induction n using Nat.strongRecOn with
  | ind n ih =>
    intro f g hf hg
    match f, g with
    | f + 1, g + 1 =>
      rw [natCharsAux, natCharsAux]
      by_cases h : n < 10
      · simp [h]
      · simp only [if_neg h]
        rw [natCharsAux_acc _ _ _ (by omega), natCharsAux_acc (n := n / 10) g _ (by omega),
          ih (n / 10) (by omega) f g (by omega) (by omega)]

theorem natChars_unfold (n : Nat) :
    natChars n = (if n < 10 then [] else natChars (n / 10)) ++ [Nat.digitChar (n % 10)] := by
  rw [natChars, natCharsAux]
  by_cases h : n < 10
  · simp [h, Nat.mod_eq_of_lt h]
  · simp only [if_neg h]
    rw [natCharsAux_acc _ _ _ (by omega), natChars,
      natCharsAux_fuel (n / 10) n (n / 10 + 1) (by omega) (by omega)]

theorem natChars_ne_nil (n : Nat) : natChars n ≠ [] := by
  rw [natChars_unfold]; simp

theorem natChars_digits (n : Nat) : ∀ c ∈ natChars n, digitQ c = true := by
  induction n using Nat.strongRecOn with
  | ind n ih =>
    rw [natChars_unfold]
    intro c hc
    rw [List.mem_append] at hc
    rcases hc with hc | hc
    · by_cases h : n < 10
      · simp [h] at hc
      · exact ih (n / 10) (by omega) c (by simpa [h] using hc)
    · rw [List.mem_singleton] at hc
      subst hc
      exact digitQ_digitChar (Nat.mod_lt _ (by omega))

theorem digitsNum_natChars (n : Nat) : digitsNum (natChars n) = n := by
  induction n using Nat.strongRecOn with
  | ind n ih =>
    rw [natChars_unfold]
    unfold digitsNum
    rw [List.foldl_append]
    by_cases h : n < 10
    · simp only [if_pos h, List.foldl_nil, List.foldl_cons]
      rw [toNat_digitChar (Nat.mod_lt _ (by omega))]
      omega
    · simp only [if_neg h, List.foldl_cons, List.foldl_nil]
      have := ih (n / 10) (by omega)
      unfold digitsNum at this
      rw [this, toNat_digitChar (Nat.mod_lt _ (by omega))]
      omega

theorem natChars_head (n : Nat) : ∃ c t, natChars n = c :: t ∧ digitQ c = true := by
  match h : natChars n with
  | [] => exact absurd h (natChars_ne_nil n)
  | c :: t => exact ⟨c, t, rfl, natChars_digits n c (h ▸ List.mem_cons_self ..)⟩

/-- True when the remainder cannot extend a decimal number: empty, or headed
by a non-digit.  Every character the serializer puts after a number (comma,
newline, closing bracket or brace) qualifies. -/
def intStop (cs : List Char) : Bool :=
  match cs with
  | [] => true
  | c :: _ => !digitQ c

theorem digitsTake_stop {cs : List Char} (h : intStop cs = true) : digitsTake cs = ([], cs) := by
  match cs with
  | [] => rfl
  | c :: t =>
    simp only [intStop, Bool.not_eq_true'] at h
    simp [digitsTake, h]

theorem digitsTake_run (ds : List Char) (hds : ∀ c ∈ ds, digitQ c = true)
    (rest : List Char) (hrest : digitsTake rest = ([], rest)) :
    digitsTake (ds ++ rest) = (ds, rest) := by
  induction ds with
  | nil => simpa using hrest
  | cons c t ih =>
    have hc : digitQ c = true := hds c (by simp)
    have ht := ih (fun x hx => hds x (by simp [hx]))
    simp [digitsTake, hc, ht]

theorem digitQ_not_minus {c : Char} (h : digitQ c = true) : c ≠ minusChar := by
  intro he
  subst he
  exact absurd h (by decide)

theorem readInt_intChars (n : Int) (rest : List Char) (hr : intStop rest = true) :
    readInt (intChars n ++ rest) = some (n, rest) := by
  by_cases hn : n < 0
  · obtain ⟨c, t, hct, hc⟩ := natChars_head n.natAbs
    have htd : digitsTake (c :: (t ++ rest)) = (c :: t, rest) := by
      have := digitsTake_run _ (natChars_digits n.natAbs) _ (digitsTake_stop hr)
      rwa [hct, List.cons_append] at this
    have hdn : digitsNum (c :: t) = n.natAbs := by
      have := digitsNum_natChars n.natAbs
      rwa [hct] at this
    have harg : intChars n ++ rest = minusChar :: (c :: (t ++ rest)) := by
      simp [intChars, hn, hct]
    rw [harg, readInt, if_pos rfl, htd]
    show some (-(digitsNum (c :: t) : Int), rest) = some (n, rest)
    rw [hdn]
    simp only [Option.some.injEq, Prod.mk.injEq, and_true]
    omega
  · obtain ⟨c, t, hct, hc⟩ := natChars_head n.toNat
    have htd : digitsTake (c :: (t ++ rest)) = (c :: t, rest) := by
      have := digitsTake_run _ (natChars_digits n.toNat) _ (digitsTake_stop hr)
      rwa [hct, List.cons_append] at this
    have hdn : digitsNum (c :: t) = n.toNat := by
      have := digitsNum_natChars n.toNat
      rwa [hct] at this
    have harg : intChars n ++ rest = c :: (t ++ rest) := by
      simp [intChars, hn, hct]
    rw [harg, readInt, if_neg (by exact fun he => digitQ_not_minus hc he), htd]
    show some ((digitsNum (c :: t) : Int), rest) = some (n, rest)
    rw [hdn]
    simp only [Option.some.injEq, Prod.mk.injEq, and_true]
    omega

/-! ## String escaping inverts (readStrAux undoes escChars) -/

theorem hexNum_digitChar {d : Nat} (h : d < 16) : hexNum (Nat.digitChar d) = some d := by
  interval_cases d <;> decide

theorem string_mk_data (s : String) : String.mk s.data = s := by
  cases s
  rfl

theorem readStrAux_plain (acc : List Char) (c e : Char) (rest : List Char)
    (h1 : ¬c = qChar) (h2 : ¬c = bsChar) :
    readStrAux acc (c :: e :: rest) = readStrAux (c :: acc) (e :: rest) := by
  rw [readStrAux]
  all_goals intros
  all_goals first
    | exact h1 (by assumption)
    | exact h2 (by assumption)

theorem readStrAux_escChar (c : Char) (acc rest : List Char) :
    readStrAux acc (escChar c ++ rest) = readStrAux (c :: acc) rest := by
  by_cases h1 : c = qChar
  · subst h1; rfl
  by_cases h2 : c = bsChar
  · subst h2; rfl
  by_cases h3 : c = nlChar
  · subst h3; rfl
  by_cases h4 : c = tabChar
  · subst h4; rfl
  by_cases h5 : c = crChar
  · subst h5; rfl
  by_cases h6 : c = Char.ofNat 8
  · subst h6; rfl
  by_cases h7 : c = Char.ofNat 12
  · subst h7; rfl
  by_cases hlt : c.toNat < 32
  · have hhi : c.toNat / 16 < 16 := by omega
    have hlo : c.toNat % 16 < 16 := Nat.mod_lt _ (by omega)
    have hx : hex4v '0' '0' (Nat.digitChar (c.toNat / 16)) (Nat.digitChar (c.toNat % 16))
        = some c.toNat := by
      unfold hex4v
      rw [hexNum_digitChar hhi, hexNum_digitChar hlo]
      show some (((0 * 16 + 0) * 16 + c.toNat / 16) * 16 + c.toNat % 16) = some c.toNat
      simp only [Option.some.injEq]
      omega
    simp only [escChar, if_neg h1, if_neg h2, if_neg h3, if_neg h4, if_neg h5, if_neg h6,
      if_neg h7, if_pos hlt, List.cons_append]
    rw [readStrAux, hx]
    show readStrAux (Char.ofNat c.toNat :: acc) ([] ++ rest) = readStrAux (c :: acc) rest
    rw [Char.ofNat_toNat, List.nil_append]
  · simp only [escChar, if_neg h1, if_neg h2, if_neg h3, if_neg h4, if_neg h5, if_neg h6,
      if_neg h7, if_neg hlt, List.singleton_append]
    rcases rest with _ | ⟨e, rest⟩
    · rw [show readStrAux (c :: acc) [] = none from rfl, readStrAux]
      all_goals intros
      all_goals first
        | rfl
        | exact h1 (by assumption)
        | exact h2 (by assumption)
    · exact readStrAux_plain acc c e rest h1 h2

theorem readStrAux_escChars (cs : List Char) : ∀ (acc rest : List Char),
    readStrAux acc (escChars cs ++ qChar :: rest) = some (String.mk (acc.reverse ++ cs), rest) := by
  induction cs with
  | nil =>
    intro acc rest
    simp [escChars, readStrAux]
  | cons c cs ih =>
    intro acc rest
    rw [show escChars (c :: cs) = escChar c ++ escChars cs from List.flatMap_cons ..,
      List.append_assoc, readStrAux_escChar, ih]
    simp

theorem readStr_strBody (s : String) (rest : List Char) :
    readStrAux [] (escChars s.data ++ qChar :: rest) = some (s, rest) := by
  rw [readStrAux_escChars]
  simp [string_mk_data]

/-! ## Whitespace and head-character facts about the serializer -/

theorem dropWs_head {c : Char} {cs : List Char} (h : wsChar c = false) :
    dropWs (c :: cs) = c :: cs := by
  simp [dropWs, h]

theorem dropWs_ws_append (ws : List Char) (h : ∀ c ∈ ws, wsChar c = true) (cs : List Char) :
    dropWs (ws ++ cs) = dropWs cs := by
  induction ws with
  | nil => simp
  | cons w ws ih =>
    have hw : wsChar w = true := h w (by simp)
    rw [List.cons_append, dropWs, if_pos hw, ih (fun c hc => h c (by simp [hc]))]

theorem jnl_ws (ind : Option Nat) (lvl : Nat) : ∀ c ∈ jnl ind lvl, wsChar c = true := by
  match ind with
  | none => simp [jnl]
  | some n =>
    intro c hc
    simp only [jnl, List.mem_cons] at hc
    rcases hc with hc | hc
    · subst hc; decide
    · rw [List.eq_of_mem_replicate hc]; decide

theorem jsep_shape (ind : Option Nat) (lvl : Nat) :
    ∃ ws, jsep ind lvl = ',' :: ws ∧ ∀ c ∈ ws, wsChar c = true := by
  match ind with
  | none => exact ⟨[' '], rfl, by simp; decide⟩
  | some n =>
    refine ⟨nlChar :: List.replicate (n * lvl) ' ', rfl, ?_⟩
    intro c hc
    simp only [List.mem_cons] at hc
    rcases hc with hc | hc
    · subst hc; decide
    · rw [List.eq_of_mem_replicate hc]; decide

theorem digitQ_facts {c : Char} (h : digitQ c = true) :
    wsChar c = false ∧ c ≠ rbChar ∧ c ≠ cbChar ∧ c ≠ ',' ∧ c ≠ ':' ∧ c ≠ qChar
      ∧ c ≠ lbChar ∧ c ≠ obChar := by
  simp only [digitQ, Bool.and_eq_true, decide_eq_true_eq] at h
  refine ⟨?_, ?_, ?_, ?_, ?_, ?_, ?_, ?_⟩
  · simp only [wsChar, Bool.or_eq_false_iff, decide_eq_false_iff_not]
    refine ⟨⟨⟨fun he => ?_, fun he => ?_⟩, fun he => ?_⟩, fun he => ?_⟩ <;>
      (subst he; revert h; decide)
  all_goals intro he; subst he; revert h; decide

/-- Serialized values start with a character that is no whitespace, closes
nothing, and is neither a comma nor a colon. -/
theorem jdumpV_head (ind : Option Nat) (lvl : Nat) (v : JVal) :
    ∃ c t, jdumpV ind lvl v = c :: t ∧ wsChar c = false ∧ c ≠ rbChar ∧ c ≠ cbChar
      ∧ c ≠ ',' ∧ c ≠ ':' := by
  match v with
  | .jint n =>
    by_cases hn : n < 0
    · exact ⟨minusChar, natChars n.natAbs, by simp [jdumpV, intChars, hn], by decide, by decide,
        by decide, by decide, by decide⟩
    · obtain ⟨c, t, hct, hc⟩ := natChars_head n.toNat
      obtain ⟨hws, hrb, hcb, hcm, hco, _, _, _⟩ := digitQ_facts hc
      exact ⟨c, t, by simp [jdumpV, intChars, hn, hct], hws, hrb, hcb, hcm, hco⟩
  | .jstr s =>
    exact ⟨qChar, escChars s.data ++ [qChar], by simp [jdumpV, strChars], by decide, by decide,
      by decide, by decide, by decide⟩
  | .jarr .nil =>
    exact ⟨lbChar, _, rfl, by decide, by decide, by decide, by decide, by decide⟩
  | .jarr (.cons v tl) =>
    exact ⟨lbChar, _, rfl, by decide, by decide, by decide, by decide, by decide⟩
  | .jobj .nil =>
    exact ⟨obChar, _, rfl, by decide, by decide, by decide, by decide, by decide⟩
  | .jobj (.cons k v tl) =>
    exact ⟨obChar, _, rfl, by decide, by decide, by decide, by decide, by decide⟩

/-! ## Stop-character and length facts feeding the round-trip -/

theorem wsChar_not_digit {c : Char} (h : wsChar c = true) : digitQ c = false := by
  simp only [wsChar, Bool.or_eq_true, decide_eq_true_eq] at h
  rcases h with ((h | h) | h) | h <;> (subst h; decide)

theorem intStop_not_digit {c : Char} (t : List Char) (h : digitQ c = false) :
    intStop (c :: t) = true := by
  simp [intStop, h]

theorem intStop_ws (ws : List Char) (hws : ∀ c ∈ ws, wsChar c = true) (cs : List Char)
    (h : intStop cs = true) : intStop (ws ++ cs) = true := by
  cases ws with
  | nil => simpa
  | cons w t => exact intStop_not_digit _ (wsChar_not_digit (hws w (by simp)))

theorem intStop_jdumpA (ind : Option Nat) (lvl : Nat) (tl : JArr) (cs : List Char)
    (h : intStop cs = true) : intStop (jdumpA ind lvl tl ++ cs) = true := by
  cases tl with
  | nil => simpa [jdumpA]
  | cons v tl =>
    obtain ⟨ws2, hsep, _⟩ := jsep_shape ind lvl
    rw [jdumpA, hsep]
    exact intStop_not_digit _ (by decide)

theorem intStop_jdumpO (ind : Option Nat) (lvl : Nat) (tl : JObj) (cs : List Char)
    (h : intStop cs = true) : intStop (jdumpO ind lvl tl ++ cs) = true := by
  cases tl with
  | nil => simpa [jdumpO]
  | cons k v tl =>
    obtain ⟨ws2, hsep, _⟩ := jsep_shape ind lvl
    rw [jdumpO, hsep]
    exact intStop_not_digit _ (by decide)

theorem jdumpV_length_pos (ind : Option Nat) (lvl : Nat) (v : JVal) :
    1 ≤ (jdumpV ind lvl v).length := by
  obtain ⟨c, t, hct, _⟩ := jdumpV_head ind lvl v
  rw [hct]
  simp

/-! ## Branch reductions of readVal on serializer output -/

theorem readVal_str (f : Nat) (s : String) (rest : List Char) :
    readVal (f + 1) (strChars s ++ rest) = some (.jstr s, rest) := by
  have harg : strChars s ++ rest = qChar :: (escChars s.data ++ (qChar :: rest)) := by
    simp [strChars]
  rw [harg, readVal, dropWs_head (by decide)]
  simp only [readStr_strBody, if_true]

theorem readVal_int (f : Nat) (n : Int) (rest : List Char) (hr : intStop rest = true) :
    readVal (f + 1) (intChars n ++ rest) = some (.jint n, rest) := by
  have hri := readInt_intChars n rest hr
  by_cases hn : n < 0
  · have harg : intChars n ++ rest = minusChar :: (natChars n.natAbs ++ rest) := by
      simp [intChars, hn]
    rw [harg] at hri
    rw [harg, readVal, dropWs_head (by decide)]
    simp only [hri, if_neg (show ¬minusChar = qChar by decide),
      if_neg (show ¬minusChar = lbChar by decide), if_neg (show ¬minusChar = obChar by decide)]
    simp
  · obtain ⟨c, t, hct, hc⟩ := natChars_head n.toNat
    obtain ⟨hws, _, _, _, _, hq, hlb, hob⟩ := digitQ_facts hc
    have harg : intChars n ++ rest = c :: (t ++ rest) := by
      simp [intChars, hn, hct]
    rw [harg] at hri
    rw [harg, readVal, dropWs_head hws]
    simp only [hri, if_neg hq, if_neg hlb, if_neg hob, if_pos (show (c = minusChar || digitQ c) = true by simp [hc])]

theorem readVal_arrNil (f : Nat) (ind : Option Nat) (lvl : Nat) (rest : List Char) :
    readVal (f + 1) (jdumpV ind lvl (.jarr .nil) ++ rest) = some (.jarr .nil, rest) := by
  rfl

theorem readVal_objNil (f : Nat) (ind : Option Nat) (lvl : Nat) (rest : List Char) :
    readVal (f + 1) (jdumpV ind lvl (.jobj .nil) ++ rest) = some (.jobj .nil, rest) := by
  rfl

theorem readVal_arrCons (f : Nat) (ind : Option Nat) (lvl : Nat) (v : JVal) (tl : JArr)
    (rest : List Char) :
    readVal (f + 1) (jdumpV ind lvl (.jarr (.cons v tl)) ++ rest)
      = (match readItems f (jdumpV ind (lvl + 1) v ++ (jdumpA ind (lvl + 1) tl
            ++ (jnl ind lvl ++ rbChar :: rest))) with
         | some (items, r3) => some (.jarr items, r3)
         | none => none) := by
  obtain ⟨c, t, hct, hws, hrb, hcb, hcm, hco⟩ := jdumpV_head ind (lvl + 1) v
  have harg : jdumpV ind lvl (.jarr (.cons v tl)) ++ rest
      = lbChar :: (jnl ind (lvl + 1) ++ (jdumpV ind (lvl + 1) v ++ (jdumpA ind (lvl + 1) tl
          ++ (jnl ind lvl ++ rbChar :: rest)))) := by
    simp [jdumpV]
  have hchunk : jdumpV ind (lvl + 1) v ++ (jdumpA ind (lvl + 1) tl
      ++ (jnl ind lvl ++ rbChar :: rest))
      = c :: (t ++ (jdumpA ind (lvl + 1) tl ++ (jnl ind lvl ++ rbChar :: rest))) := by
    rw [hct]
    simp
  rw [harg, readVal, dropWs_head (by decide)]
  simp only [if_neg (show ¬lbChar = qChar by decide), if_pos (show lbChar = lbChar from rfl),
    if_true]
  rw [dropWs_ws_append _ (jnl_ws ind (lvl + 1)), hchunk, dropWs_head hws]
  simp only [if_neg hrb]

theorem readVal_objCons (f : Nat) (ind : Option Nat) (lvl : Nat) (k : String) (v : JVal)
    (tl : JObj) (rest : List Char) :
    readVal (f + 1) (jdumpV ind lvl (.jobj (.cons k v tl)) ++ rest)
      = (match readFields f (strChars k ++ (':' :: ' ' :: (jdumpV ind (lvl + 1) v
            ++ (jdumpO ind (lvl + 1) tl ++ (jnl ind lvl ++ cbChar :: rest))))) with
         | some (fields, r3) => some (.jobj fields, r3)
         | none => none) := by
  have harg : jdumpV ind lvl (.jobj (.cons k v tl)) ++ rest
      = obChar :: (jnl ind (lvl + 1) ++ (strChars k ++ (':' :: ' ' :: (jdumpV ind (lvl + 1) v
          ++ (jdumpO ind (lvl + 1) tl ++ (jnl ind lvl ++ cbChar :: rest)))))) := by
    simp [jdumpV, strChars]
  have hchunk : strChars k ++ (':' :: ' ' :: (jdumpV ind (lvl + 1) v
      ++ (jdumpO ind (lvl + 1) tl ++ (jnl ind lvl ++ cbChar :: rest))))
      = qChar :: (escChars k.data ++ (qChar :: (':' :: ' ' :: (jdumpV ind (lvl + 1) v
          ++ (jdumpO ind (lvl + 1) tl ++ (jnl ind lvl ++ cbChar :: rest)))))) := by
    simp [strChars]
  rw [harg, readVal, dropWs_head (by decide)]
  simp only [if_neg (show ¬obChar = qChar by decide), if_neg (show ¬obChar = lbChar by decide),
    if_pos (show obChar = obChar from rfl), if_true]
  rw [dropWs_ws_append _ (jnl_ws ind (lvl + 1)), hchunk, dropWs_head (by decide)]
  simp only [if_neg (show ¬qChar = cbChar by decide)]

/-! ## The round-trip: readVal inverts jdumpV on any indentation -/

mutual

theorem rtV (v : JVal) : ∀ (ind : Option Nat) (lvl f : Nat) (rest : List Char),
    (jdumpV ind lvl v).length < f → intStop rest = true →
    readVal f (jdumpV ind lvl v ++ rest) = some (v, rest) := by
  match v with
  | .jint n =>
    intro ind lvl f rest hf hr
    match f with
    | 0 => omega
    | f + 1 => exact readVal_int f n rest hr
  | .jstr s =>
    intro ind lvl f rest hf hr
    match f with
    | 0 => omega
    | f + 1 => exact readVal_str f s rest
  | .jarr .nil =>
    intro ind lvl f rest hf hr
    match f with
    | 0 => omega
    | f + 1 => exact readVal_arrNil f ind lvl rest
  | .jarr (.cons v tl) =>
    intro ind lvl f rest hf hr
    match f with
    | 0 => omega
    | f + 1 =>
      rw [readVal_arrCons f ind lvl v tl rest]
      have hlen : (jdumpV ind lvl (.jarr (.cons v tl))).length
          = 1 + ((jnl ind (lvl + 1)).length + ((jdumpV ind (lvl + 1) v).length
            + ((jdumpA ind (lvl + 1) tl).length + ((jnl ind lvl).length + 1)))) := by
        simp [jdumpV]
        omega
      have key := rtA v tl ind (lvl + 1) f (jnl ind lvl) rest (by omega) (jnl_ws ind lvl)
      rw [key]
  | .jobj .nil =>
    intro ind lvl f rest hf hr
    match f with
    | 0 => omega
    | f + 1 => exact readVal_objNil f ind lvl rest
  | .jobj (.cons k v tl) =>
    intro ind lvl f rest hf hr
    match f with
    | 0 => omega
    | f + 1 =>
      rw [readVal_objCons f ind lvl k v tl rest]
      have hlen : (jdumpV ind lvl (.jobj (.cons k v tl))).length
          = 1 + ((jnl ind (lvl + 1)).length + ((strChars k).length
            + (2 + ((jdumpV ind (lvl + 1) v).length
            + ((jdumpO ind (lvl + 1) tl).length + ((jnl ind lvl).length + 1)))))) := by
        simp [jdumpV, strChars]
        omega
      have key := rtO k v tl ind (lvl + 1) f (jnl ind lvl) rest (by omega) (jnl_ws ind lvl)
      rw [key]
termination_by sizeOf v

theorem rtA (v : JVal) (tl : JArr) : ∀ (ind : Option Nat) (lvl f : Nat) (ws rest : List Char),
    (jdumpV ind lvl v).length + (jdumpA ind lvl tl).length + 1 < f →
    (∀ c ∈ ws, wsChar c = true) →
    readItems f (jdumpV ind lvl v ++ (jdumpA ind lvl tl ++ (ws ++ rbChar :: rest)))
      = some (.cons v tl, rest) := by
  intro ind lvl f ws rest hf hws
  match f with
  | 0 => omega
  | f + 1 =>
    have hstop : intStop (jdumpA ind lvl tl ++ (ws ++ rbChar :: rest)) = true :=
      intStop_jdumpA ind lvl tl _ (intStop_ws ws hws _ (intStop_not_digit _ (by decide)))
    have hv := rtV v ind lvl f (jdumpA ind lvl tl ++ (ws ++ rbChar :: rest)) (by omega) hstop
    rw [readItems, hv]
    show (match dropWs (jdumpA ind lvl tl ++ (ws ++ rbChar :: rest)) with
      | [] => none
      | c :: r2 =>
        if c = ',' then
          match readItems f (dropWs r2) with
          | some (tl3, r3) => some (JArr.cons v tl3, r3)
          | none => none
        else if c = rbChar then some (JArr.cons v JArr.nil, r2)
        else none) = some (JArr.cons v tl, rest)
    cases tl with
    | nil =>
      rw [show jdumpA ind lvl JArr.nil ++ (ws ++ rbChar :: rest) = ws ++ rbChar :: rest from by
        rw [jdumpA]
        simp]
      rw [dropWs_ws_append _ hws, dropWs_head (by decide)]
      show (if rbChar = ',' then
          (match readItems f (dropWs rest) with
           | some (tl3, r3) => some (JArr.cons v tl3, r3)
           | none => none)
        else if rbChar = rbChar then some (JArr.cons v JArr.nil, rest)
        else none) = some (JArr.cons v JArr.nil, rest)
      rw [if_neg (by decide), if_pos rfl]
    | cons v2 tl2 =>
      obtain ⟨ws2, hsep, hws2⟩ := jsep_shape ind lvl
      obtain ⟨c, t, hct, hcws, _, _, _, _⟩ := jdumpV_head ind lvl v2
      have hchunk2 : jdumpV ind lvl v2 ++ (jdumpA ind lvl tl2 ++ (ws ++ rbChar :: rest))
          = c :: (t ++ (jdumpA ind lvl tl2 ++ (ws ++ rbChar :: rest))) := by
        rw [hct]
        simp
      have harr : jdumpA ind lvl (JArr.cons v2 tl2) ++ (ws ++ rbChar :: rest)
          = ',' :: (ws2 ++ (jdumpV ind lvl v2 ++ (jdumpA ind lvl tl2 ++ (ws ++ rbChar :: rest)))) := by
        rw [jdumpA, hsep]
        simp
      rw [harr, dropWs_head (by decide)]
      show (match readItems f (dropWs (ws2 ++ (jdumpV ind lvl v2 ++ (jdumpA ind lvl tl2
          ++ (ws ++ rbChar :: rest))))) with
        | some (tl3, r3) => some (JArr.cons v tl3, r3)
        | none => none) = some (JArr.cons v (JArr.cons v2 tl2), rest)
      rw [dropWs_ws_append _ hws2, hchunk2, dropWs_head hcws, ← hchunk2]
      have hlen2 : (jdumpA ind lvl (JArr.cons v2 tl2)).length
          = (jsep ind lvl).length + (jdumpV ind lvl v2).length + (jdumpA ind lvl tl2).length := by
        simp [jdumpA]
        omega
      have hsl : 1 ≤ (jsep ind lvl).length := by
        rw [hsep]
        simp
      have hv1 : 1 ≤ (jdumpV ind lvl v).length := jdumpV_length_pos ind lvl v
      have key := rtA v2 tl2 ind lvl f ws rest (by omega) hws
      rw [key]
termination_by sizeOf v + sizeOf tl + 1

theorem rtO (k : String) (v : JVal) (tl : JObj) :
    ∀ (ind : Option Nat) (lvl f : Nat) (ws rest : List Char),
    (strChars k).length + (jdumpV ind lvl v).length + (jdumpO ind lvl tl).length + 1 < f →
    (∀ c ∈ ws, wsChar c = true) →
    readFields f (strChars k ++ (':' :: ' ' :: (jdumpV ind lvl v
        ++ (jdumpO ind lvl tl ++ (ws ++ cbChar :: rest)))))
      = some (.cons k v tl, rest) := by
  intro ind lvl f ws rest hf hws
  match f with
  | 0 => omega
  | f + 1 =>
    obtain ⟨c, t, hct, hcws, _, _, _, _⟩ := jdumpV_head ind lvl v
    have hstop : intStop (jdumpO ind lvl tl ++ (ws ++ cbChar :: rest)) = true :=
      intStop_jdumpO ind lvl tl _ (intStop_ws ws hws _ (intStop_not_digit _ (by decide)))
    have hv := rtV v ind lvl f (jdumpO ind lvl tl ++ (ws ++ cbChar :: rest)) (by omega) hstop
    have hvchunk : jdumpV ind lvl v ++ (jdumpO ind lvl tl ++ (ws ++ cbChar :: rest))
        = c :: (t ++ (jdumpO ind lvl tl ++ (ws ++ cbChar :: rest))) := by
      rw [hct]
      simp
    have hchunk : strChars k ++ (':' :: ' ' :: (jdumpV ind lvl v
        ++ (jdumpO ind lvl tl ++ (ws ++ cbChar :: rest))))
        = qChar :: (escChars k.data ++ (qChar :: (':' :: ' ' :: (jdumpV ind lvl v
            ++ (jdumpO ind lvl tl ++ (ws ++ cbChar :: rest)))))) := by
      simp [strChars]
    have hdws : dropWs (' ' :: (jdumpV ind lvl v ++ (jdumpO ind lvl tl ++ (ws ++ cbChar :: rest))))
        = jdumpV ind lvl v ++ (jdumpO ind lvl tl ++ (ws ++ cbChar :: rest)) := by
      rw [dropWs, if_pos (show wsChar ' ' = true by decide), hvchunk, dropWs_head hcws, ← hvchunk]
    rw [readFields, hchunk, dropWs_head (by decide)]
    show (match readStrAux [] (escChars k.data ++ (qChar :: (':' :: ' ' :: (jdumpV ind lvl v
        ++ (jdumpO ind lvl tl ++ (ws ++ cbChar :: rest)))))) with
      | none => none
      | some (k2, r1) =>
        match dropWs r1 with
        | [] => none
        | c2 :: r2 =>
          if c2 = ':' then
            match readVal f (dropWs r2) with
            | none => none
            | some (v2, r3) =>
              match dropWs r3 with
              | [] => none
              | c3 :: r4 =>
                if c3 = ',' then
                  match readFields f (dropWs r4) with
                  | some (tl3, r5) => some (JObj.cons k2 v2 tl3, r5)
                  | none => none
                else if c3 = cbChar then some (JObj.cons k2 v2 JObj.nil, r4)
                else none
          else none) = some (JObj.cons k v tl, rest)
    rw [readStr_strBody]
    show (match dropWs (':' :: ' ' :: (jdumpV ind lvl v ++ (jdumpO ind lvl tl
        ++ (ws ++ cbChar :: rest)))) with
      | [] => none
      | c2 :: r2 =>
        if c2 = ':' then
          match readVal f (dropWs r2) with
          | none => none
          | some (v2, r3) =>
            match dropWs r3 with
            | [] => none
            | c3 :: r4 =>
              if c3 = ',' then
                match readFields f (dropWs r4) with
                | some (tl3, r5) => some (JObj.cons k v2 tl3, r5)
                | none => none
              else if c3 = cbChar then some (JObj.cons k v2 JObj.nil, r4)
              else none
        else none) = some (JObj.cons k v tl, rest)
    rw [dropWs_head (by decide)]
    show (match readVal f (dropWs (' ' :: (jdumpV ind lvl v ++ (jdumpO ind lvl tl
        ++ (ws ++ cbChar :: rest))))) with
      | none => none
      | some (v2, r3) =>
        match dropWs r3 with
        | [] => none
        | c3 :: r4 =>
          if c3 = ',' then
            match readFields f (dropWs r4) with
            | some (tl3, r5) => some (JObj.cons k v2 tl3, r5)
            | none => none
          else if c3 = cbChar then some (JObj.cons k v2 JObj.nil, r4)
          else none) = some (JObj.cons k v tl, rest)
    rw [hdws, hv]
    show (match dropWs (jdumpO ind lvl tl ++ (ws ++ cbChar :: rest)) with
      | [] => none
      | c3 :: r4 =>
        if c3 = ',' then
          match readFields f (dropWs r4) with
          | some (tl3, r5) => some (JObj.cons k v tl3, r5)
          | none => none
        else if c3 = cbChar then some (JObj.cons k v JObj.nil, r4)
        else none) = some (JObj.cons k v tl, rest)
    cases tl with
    | nil =>
      rw [show jdumpO ind lvl JObj.nil ++ (ws ++ cbChar :: rest) = ws ++ cbChar :: rest from by
        rw [jdumpO]
        simp]
      rw [dropWs_ws_append _ hws, dropWs_head (by decide)]
      show (if cbChar = ',' then
          (match readFields f (dropWs rest) with
           | some (tl3, r5) => some (JObj.cons k v tl3, r5)
           | none => none)
        else if cbChar = cbChar then some (JObj.cons k v JObj.nil, rest)
        else none) = some (JObj.cons k v JObj.nil, rest)
      rw [if_neg (by decide), if_pos rfl]
    | cons k2 v2 tl2 =>
      obtain ⟨ws2, hsep, hws2⟩ := jsep_shape ind lvl
      have hchunk2 : strChars k2 ++ (':' :: ' ' :: (jdumpV ind lvl v2
          ++ (jdumpO ind lvl tl2 ++ (ws ++ cbChar :: rest))))
          = qChar :: (escChars k2.data ++ (qChar :: (':' :: ' ' :: (jdumpV ind lvl v2
              ++ (jdumpO ind lvl tl2 ++ (ws ++ cbChar :: rest)))))) := by
        simp [strChars]
      have hobj : jdumpO ind lvl (JObj.cons k2 v2 tl2) ++ (ws ++ cbChar :: rest)
          = ',' :: (ws2 ++ (strChars k2 ++ (':' :: ' ' :: (jdumpV ind lvl v2
              ++ (jdumpO ind lvl tl2 ++ (ws ++ cbChar :: rest)))))) := by
        rw [jdumpO, hsep]
        simp [strChars]
      rw [hobj, dropWs_head (by decide)]
      show (match readFields f (dropWs (ws2 ++ (strChars k2 ++ (':' :: ' ' :: (jdumpV ind lvl v2
          ++ (jdumpO ind lvl tl2 ++ (ws ++ cbChar :: rest))))))) with
        | some (tl3, r5) => some (JObj.cons k v tl3, r5)
        | none => none) = some (JObj.cons k v (JObj.cons k2 v2 tl2), rest)
      rw [dropWs_ws_append _ hws2, hchunk2, dropWs_head (by decide), ← hchunk2]
      have hlen2 : (jdumpO ind lvl (JObj.cons k2 v2 tl2)).length
          = (jsep ind lvl).length + ((strChars k2).length + (2 + ((jdumpV ind lvl v2).length
            + (jdumpO ind lvl tl2).length))) := by
        simp [jdumpO]
        omega
      have hsl : 1 ≤ (jsep ind lvl).length := by
        rw [hsep]
        simp
      have hv1 : 1 ≤ (jdumpV ind lvl v).length := jdumpV_length_pos ind lvl v
      have key := rtO k2 v2 tl2 ind lvl f ws rest (by omega) hws
      rw [key]
termination_by sizeOf v + sizeOf tl + 1

end

/-- The reader inverts the serializer at any indentation setting. -/
theorem parseJson_jdumpStr (ind : Option Nat) (v : JVal) :
    parseJson (jdumpStr ind v) = some v := by
  have h := rtV v ind 0 ((jdumpV ind 0 v).length + 1) [] (by omega) (by rfl)
  rw [List.append_nil] at h
  unfold parseJson
  rw [show (jdumpStr ind v).data = jdumpV ind 0 v from rfl, h]
  rfl

/-- The serializer is injective (two values with the same dump are equal). -/
theorem jdumpStr_inj (ind : Option Nat) {v1 v2 : JVal} (h : jdumpStr ind v1 = jdumpStr ind v2) :
    v1 = v2 := by
  have h1 := parseJson_jdumpStr ind v1
  rw [h, parseJson_jdumpStr ind v2] at h1
  exact (Option.some.inj h1).symm

/-! ## Key sorting facts (sort_keys is insertion-order independent) -/

theorem charsLe_total (as bs : List Char) : charsLe as bs = true ∨ charsLe bs as = true := by
  induction as generalizing bs with
  | nil => left; rfl
  | cons a as ih =>
    cases bs with
    | nil => right; rfl
    | cons b bs =>
      by_cases hab : a.toNat < b.toNat
      · left; simp [charsLe, hab]
      · by_cases hba : b.toNat < a.toNat
        · right; simp [charsLe, hba]
        · rcases ih bs with h | h
          · left; simp [charsLe, hab, hba, h]
          · right; simp [charsLe, hab, hba, h]

theorem charsLe_cases {a b : Char} {as bs : List Char} (h : charsLe (a :: as) (b :: bs) = true) :
    a.toNat < b.toNat ∨ (a.toNat = b.toNat ∧ charsLe as bs = true) := by
  by_cases hab : a.toNat < b.toNat
  · left; exact hab
  · by_cases hba : b.toNat < a.toNat
    · rw [charsLe, if_neg hab, if_pos hba] at h
      exact absurd h (by decide)
    · right
      rw [charsLe, if_neg hab, if_neg hba] at h
      exact ⟨by omega, h⟩

theorem charsLe_trans : ∀ {as bs cs : List Char}, charsLe as bs = true →
    charsLe bs cs = true → charsLe as cs = true := by
  intro as
  induction as with
  | nil => intro bs cs h1 h2; rfl
  | cons a as ih =>
    intro bs cs h1 h2
    cases bs with
    | nil => exact absurd h1 (by simp [charsLe])
    | cons b bs =>
      cases cs with
      | nil => exact absurd h2 (by simp [charsLe])
      | cons c cs =>
        rcases charsLe_cases h1 with hab | ⟨hab, h1r⟩ <;>
          rcases charsLe_cases h2 with hbc | ⟨hbc, h2r⟩ <;>
          rw [charsLe]
        · rw [if_pos (by omega)]
        · rw [if_pos (by omega)]
        · rw [if_pos (by omega)]
        · rw [if_neg (by omega), if_neg (by omega)]
          exact ih h1r h2r

theorem charsLe_antisymm : ∀ {as bs : List Char}, charsLe as bs = true →
    charsLe bs as = true → as = bs := by
  intro as
  induction as with
  | nil =>
    intro bs h1 h2
    cases bs with
    | nil => rfl
    | cons b bs => exact absurd h2 (by simp [charsLe])
  | cons a as ih =>
    intro bs h1 h2
    cases bs with
    | nil => exact absurd h1 (by simp [charsLe])
    | cons b bs =>
      rcases charsLe_cases h1 with hab | ⟨hab, h1r⟩ <;>
        rcases charsLe_cases h2 with hba | ⟨hba, h2r⟩ <;>
        try omega
      have hc : a = b := by
        have := Char.ofNat_toNat a
        rw [hab] at this
        rw [← this, Char.ofNat_toNat]
      rw [hc, ih h1r h2r]

instance : IsTotal (String × JVal) keyLe :=
  ⟨fun a b => charsLe_total a.1.data b.1.data⟩

instance : IsTrans (String × JVal) keyLe :=
  ⟨fun _ _ _ h1 h2 => charsLe_trans h1 h2⟩

/-- Strict key order: below and with a different key. -/
def keyLt (a b : String × JVal) : Prop := keyLe a b ∧ a.1 ≠ b.1

theorem string_eq_of_data_eq {s t : String} (h : s.data = t.data) : s = t := by
  rw [← string_mk_data s, ← string_mk_data t, h]

instance : IsAntisymm (String × JVal) keyLt :=
  ⟨fun _ _ h1 h2 => absurd (string_eq_of_data_eq (charsLe_antisymm h1.1 h2.1)) h1.2⟩

theorem sorted_keyLt_of_nodup {l : List (String × JVal)} (hs : List.Sorted keyLe l)
    (hn : (l.map Prod.fst).Nodup) : List.Sorted keyLt l := by
  have hpw : l.Pairwise (fun a b => a.1 ≠ b.1) := (List.pairwise_map).mp hn
  exact hs.and hpw

/-- Two orderings of the same field set with distinct keys sort identically:
the canonical encoding does not depend on dict insertion order. -/
theorem sortKeys_perm_eq (ps qs : List (String × JVal)) (hperm : ps.Perm qs)
    (hnd : (ps.map Prod.fst).Nodup) : sortKeys ps = sortKeys qs := by
  have hsp : (sortKeys ps).Perm ps := List.perm_insertionSort keyLe ps
  have hsq : (sortKeys qs).Perm qs := List.perm_insertionSort keyLe qs
  have hpq : (sortKeys ps).Perm (sortKeys qs) := hsp.trans (hperm.trans hsq.symm)
  have hs1 : List.Sorted keyLe (sortKeys ps) := List.sorted_insertionSort keyLe ps
  have hs2 : List.Sorted keyLe (sortKeys qs) := List.sorted_insertionSort keyLe qs
  have hnd1 : ((sortKeys ps).map Prod.fst).Nodup := ((hsp.map Prod.fst).nodup_iff).mpr hnd
  have hndq : (qs.map Prod.fst).Nodup := ((hperm.map Prod.fst).nodup_iff).mp hnd
  have hnd2 : ((sortKeys qs).map Prod.fst).Nodup := ((hsq.map Prod.fst).nodup_iff).mpr hndq
  exact List.eq_of_perm_of_sorted hpq (sorted_keyLt_of_nodup hs1 hnd1)
    (sorted_keyLt_of_nodup hs2 hnd2)

/-! ## The canonical body encoding binds the index -/

theorem body_str_index_inj {i1 i2 : Nat} {ts1 ts2 is1 is2 fn1 fn2 fh1 fh2 ph1 ph2 : String}
    (h : body_str i1 ts1 is1 fn1 fh1 ph1 = body_str i2 ts2 is2 fn2 fh2 ph2) : i1 = i2 := by
  unfold body_str at h
  have hv := jdumpStr_inj none h
  have hs1 : sortKeys (bodyFields i1 ts1 is1 fn1 fh1 ph1)
      = [("fileHash", .jstr fh1), ("filename", .jstr fn1), ("index", .jint i1),
         ("issuer", .jstr is1), ("prevHash", .jstr ph1), ("timestamp", .jstr ts1)] := by rfl
  have hs2 : sortKeys (bodyFields i2 ts2 is2 fn2 fh2 ph2)
      = [("fileHash", .jstr fh2), ("filename", .jstr fn2), ("index", .jint i2),
         ("issuer", .jstr is2), ("prevHash", .jstr ph2), ("timestamp", .jstr ts2)] := by rfl
  rw [hs1, hs2] at hv
  simp only [objOfList, JVal.jobj.injEq, JObj.cons.injEq, JVal.jint.injEq, JVal.jstr.injEq] at hv
  omega

/-! ## Invariants of ledgers built by the issue handler -/

theorem last_block_hash_append (l : Ledger) (b : Block) :
    last_block_hash (appendBlock l b) = b.blockHash := by
  simp [last_block_hash, appendBlock, List.getLast?_concat]

theorem last_block_hash_eq_get (l : Ledger) (h : 0 < l.blocks.length) :
    last_block_hash l = (l.blocks.get ⟨l.blocks.length - 1, by omega⟩).blockHash := by
  unfold last_block_hash
  rw [List.getLast?_eq_getElem?, List.getElem?_eq_getElem (by omega)]
  simp

theorem emptyLedger_last (l : Ledger) (h : l.blocks.length = 0) :
    last_block_hash l = ZERO_DIGEST := by
  unfold last_block_hash
  rw [List.length_eq_zero.mp h]
  rfl

theorem chain_inv (sha : String → String) (shaDoc : List Nat → String) (l : Ledger)
    (hr : Reachable sha shaDoc l) :
    (∀ i (h : i < l.blocks.length), (l.blocks.get ⟨i, h⟩).index = i)
    ∧ (∀ h : 0 < l.blocks.length, (l.blocks.get ⟨0, h⟩).prevHash = ZERO_DIGEST)
    ∧ (∀ i (h : i < l.blocks.length), 0 < i →
        (l.blocks.get ⟨i, h⟩).prevHash
          = (l.blocks.get ⟨i - 1, by omega⟩).blockHash)
    ∧ (∀ b ∈ l.blocks,
        b.blockHash
          = sha (body_str b.index b.timestamp b.issuer b.filename b.fileHash b.prevHash)) := by
  induction hr with
  | empty =>
    refine ⟨fun i h => absurd h (by simp [emptyLedger]),
      fun h => absurd h (by simp [emptyLedger]),
      fun i h hp => absurd h (by simp [emptyLedger]),
      fun b hb => absurd hb (by simp [emptyLedger])⟩
  | step l r hr ih =>
    obtain ⟨ihIdx, ihGen, ihLink, ihHash⟩ := ih
    have hlen : (issueStep sha shaDoc l r).blocks.length = l.blocks.length + 1 := by
      simp [issueStep, appendBlock]
    have hgetL : ∀ i (hi : i < l.blocks.length) (h : i < (issueStep sha shaDoc l r).blocks.length),
        (issueStep sha shaDoc l r).blocks.get ⟨i, h⟩ = l.blocks.get ⟨i, hi⟩ := by
      intro i hi h
      simp only [issueStep, appendBlock, List.get_eq_getElem]
      exact List.getElem_append_left hi
    have hgetB : ∀ (h : l.blocks.length < (issueStep sha shaDoc l r).blocks.length),
        (issueStep sha shaDoc l r).blocks.get ⟨l.blocks.length, h⟩
          = issuedBlock sha shaDoc l r := by
      intro h
      simp only [issueStep, appendBlock, List.get_eq_getElem]
      exact List.getElem_concat_length _ _ _ rfl _
    refine ⟨?_, ?_, ?_, ?_⟩
    · intro i h
      by_cases hi : i < l.blocks.length
      · rw [hgetL i hi h]
        exact ihIdx i hi
      · have hieq : i = l.blocks.length := by
          rw [hlen] at h
          omega
        subst hieq
        rw [hgetB h]
        rfl
    · intro h
      by_cases h0 : 0 < l.blocks.length
      · rw [hgetL 0 h0 h]
        exact ihGen h0
      · have hieq : l.blocks.length = 0 := by omega
        have := hgetB (by omega)
        have h0eq : (0 : Nat) = l.blocks.length := by omega
        rw [show (⟨0, h⟩ : Fin (issueStep sha shaDoc l r).blocks.length)
            = ⟨l.blocks.length, by omega⟩ from by simp [← h0eq], hgetB]
        show (issuedBlock sha shaDoc l r).prevHash = ZERO_DIGEST
        show last_block_hash l = ZERO_DIGEST
        exact emptyLedger_last l hieq
    · intro i h hp
      by_cases hi : i < l.blocks.length
      · rw [hgetL i hi h, hgetL (i - 1) (by omega) (by omega)]
        exact ihLink i hi hp
      · have hieq : i = l.blocks.length := by
          rw [hlen] at h
          omega
        subst hieq
        rw [hgetB h, hgetL (l.blocks.length - 1) (by omega) (by omega)]
        show last_block_hash l = _
        rw [last_block_hash_eq_get l (by omega)]
    · intro b hb
      simp only [issueStep, appendBlock, List.mem_append, List.mem_singleton] at hb
      rcases hb with hb | hb
      · exact ihHash b hb
      · subst hb
        rfl

/-- With an injective hash, distinct positions in a reachable ledger carry
distinct blockHash values (the canonical body binds the index). -/
theorem reachable_hash_inj (sha : String → String) (shaDoc : List Nat → String)
    (hinj : Function.Injective sha) (l : Ledger) (hr : Reachable sha shaDoc l)
    (i j : Nat) (hi : i < l.blocks.length) (hj : j < l.blocks.length)
    (heq : (l.blocks.get ⟨i, hi⟩).blockHash = (l.blocks.get ⟨j, hj⟩).blockHash) : i = j := by
  obtain ⟨hidx, _, _, hhash⟩ := chain_inv sha shaDoc l hr
  have h1 := hhash _ (List.get_mem l.blocks i hi)
  have h2 := hhash _ (List.get_mem l.blocks j hj)
  rw [h1, h2] at heq
  have hbody := hinj heq
  have := body_str_index_inj hbody
  rw [hidx i hi, hidx j hj] at this
  exact this

/-! ## Characterization of the chain validator walk -/

theorem prevAt_zero (bs : List Block) (p0 : String) : prevAt bs p0 0 = p0 := rfl

theorem prevAt_shift (b : Block) (bs : List Block) (p0 : String) (j : Nat) (hj : j < bs.length) :
    prevAt (b :: bs) p0 (j + 1) = prevAt bs b.blockHash j := by
  unfold prevAt
  cases j with
  | zero => simp
  | succ j =>
    simp only [if_neg (Nat.succ_ne_zero _), Nat.add_sub_cancel]
    rw [List.get?_cons_succ, List.get?_eq_get (show j < bs.length by omega)]

theorem validateAux_valid (sha : String → String) : ∀ (bs : List Block) (i0 : Nat) (p0 : String),
    validateAux sha bs i0 p0 = .Valid ↔
      ∀ j (h : j < bs.length),
        checkBlockAt sha (bs.get ⟨j, h⟩) (i0 + j) (prevAt bs p0 j) = none := by
  intro bs
  induction bs with
  | nil =>
    intro i0 p0
    simp [validateAux]
  | cons b bs ih =>
    intro i0 p0
    rw [validateAux]
    match hc : checkBlockAt sha b i0 p0 with
    | some r =>
      constructor
      · intro h
        exact absurd h (by simp)
      · intro h
        have h0 : checkBlockAt sha b i0 p0 = none := h 0 (by simp)
        rw [hc] at h0
        exact absurd h0 (by simp)
    | none =>
      rw [ih (i0 + 1) b.blockHash]
      constructor
      · intro h j hj
        cases j with
        | zero => exact hc
        | succ j =>
          have hjb : j < bs.length := by simpa using hj
          have hx := h j hjb
          rw [show i0 + 1 + j = i0 + (j + 1) by omega,
            ← prevAt_shift b bs p0 j hjb] at hx
          exact hx
      · intro h j hj
        have hx : checkBlockAt sha ((b :: bs).get ⟨j + 1, by simpa using Nat.succ_lt_succ hj⟩)
            (i0 + (j + 1)) (prevAt (b :: bs) p0 (j + 1)) = none :=
          h (j + 1) (by simpa using Nat.succ_lt_succ hj)
        rw [show i0 + (j + 1) = i0 + 1 + j by omega,
          prevAt_shift b bs p0 j hj] at hx
        exact hx

theorem validateAux_invalid (sha : String → String) :
    ∀ (bs : List Block) (i0 : Nat) (p0 : String) (i : Nat) (r : Reason),
    validateAux sha bs i0 p0 = .Invalid i r →
      ∃ j, ∃ h : j < bs.length, i = i0 + j
        ∧ checkBlockAt sha (bs.get ⟨j, h⟩) (i0 + j) (prevAt bs p0 j) = some r
        ∧ ∀ j2 (h2 : j2 < j),
            checkBlockAt sha (bs.get ⟨j2, by omega⟩) (i0 + j2) (prevAt bs p0 j2) = none := by
  intro bs
  induction bs with
  | nil =>
    intro i0 p0 i r h
    exact absurd h (by simp [validateAux])
  | cons b bs ih =>
    intro i0 p0 i r h
    rw [validateAux] at h
    match hc : checkBlockAt sha b i0 p0 with
    | some r0 =>
      rw [hc] at h
      simp only [ValidationResult.Invalid.injEq] at h
      obtain ⟨hi, hr0⟩ := h
      refine ⟨0, by simp, by omega, ?_, ?_⟩
      · show checkBlockAt sha b (i0 + 0) (prevAt (b :: bs) p0 0) = some r
        rw [hr0] at hc
        exact hc
      · intro j2 h2
        omega
    | none =>
      rw [hc] at h
      obtain ⟨j, hjb, hieq, hcj, hprev⟩ := ih (i0 + 1) b.blockHash i r h
      refine ⟨j + 1, by simpa using Nat.succ_lt_succ hjb, by omega, ?_, ?_⟩
      · rw [show i0 + (j + 1) = i0 + 1 + j by omega, prevAt_shift b bs p0 j hjb]
        exact hcj
      · intro j2 h2
        cases j2 with
        | zero => exact hc
        | succ j2 =>
          have hj2b : j2 < bs.length := by omega
          have hx := hprev j2 (by omega)
          rw [show i0 + 1 + j2 = i0 + (j2 + 1) by omega,
            ← prevAt_shift b bs p0 j2 hj2b] at hx
          exact hx

/-! ## Query characterizations -/

/-- Ledgers built by a sequence of issue requests, oldest first. -/
def buildLedger (sha : String → String) (shaDoc : List Nat → String)
    (reqs : List IssueReq) : Ledger :=
  reqs.foldl (issueStep sha shaDoc) emptyLedger

theorem foldl_fileHashes (sha : String → String) (shaDoc : List Nat → String) :
    ∀ (reqs : List IssueReq) (l : Ledger),
    (reqs.foldl (issueStep sha shaDoc) l).blocks.map Block.fileHash
      = l.blocks.map Block.fileHash ++ reqs.map (fun r => shaDoc r.doc) := by
  intro reqs
  induction reqs with
  | nil => simp
  | cons r reqs ih =>
    intro l
    rw [List.foldl_cons, ih (issueStep sha shaDoc l r)]
    simp only [issueStep, appendBlock, List.map_append, List.map_cons, List.map_nil,
      List.append_assoc, List.singleton_append, List.map]
    rfl

theorem buildLedger_fileHashes (sha : String → String) (shaDoc : List Nat → String)
    (reqs : List IssueReq) :
    (buildLedger sha shaDoc reqs).blocks.map Block.fileHash
      = reqs.map (fun r => shaDoc r.doc) := by
  rw [buildLedger, foldl_fileHashes]
  rfl

/-! ## Concrete instances used by witnesses and counterexamples -/

/-- A constant stand-in hash (enough for claims that need no injectivity). -/
def shaA : String → String := fun _ => "h"

/-- A constant stand-in document hash. -/
def shaDocA : List Nat → String := fun _ => "d"

/-- The identity stand-in hash (injective, for the payload-binding claims). -/
def shaId : String → String := fun s => s

/-- A first concrete issuance request. -/
def reqA : IssueReq := ⟨[0], "Demo Institution", "a.pdf", "T0"⟩

/-- A second concrete issuance request. -/
def reqB : IssueReq := ⟨[1], "Demo Institution", "b.pdf", "T1"⟩

/-- One-block ledger issued with the constant hash. -/
def ledgerA : Ledger := issueStep shaA shaDocA emptyLedger reqA

/-- Two-block ledger issued with the constant hash. -/
def ledgerB : Ledger := issueStep shaA shaDocA ledgerA reqB

/-- A block built against the empty tip, as a second writer racing reqA
would build it. -/
def staleBlockA : Block := issuedBlock shaA shaDocA emptyLedger reqB

/-- One-block ledger issued with the identity hash. -/
def ledgerI1 : Ledger := issueStep shaId shaDocA emptyLedger reqA

/-- Two-block ledger issued with the identity hash. -/
def ledgerI2 : Ledger := issueStep shaId shaDocA ledgerI1 reqB

/-! ## The claims -/

/-- C1, counterexample: the append of the issue handler is the unconditional
ledger["blocks"].append — a block built against the stale (empty) tip, whose
index and prevDigest both violate the claimed preconditions, is still
appended with no LinkageError and the persisted ledger changes. -/
theorem c1_counterexample :
    staleBlockA.index ≠ ledgerA.blocks.length
    ∧ staleBlockA.prevHash ≠ last_block_hash ledgerA
    ∧ appendBlock ledgerA staleBlockA = ⟨ledgerA.blocks ++ [staleBlockA]⟩
    ∧ appendBlock ledgerA staleBlockA ≠ ledgerA := by
  exact ⟨by decide, by decide, rfl, by decide⟩

/-- C1, amended: append is total and unconditional (it never fails, so both
of two appends built against the same tip succeed), while the block the
issue handler builds does satisfy index = len(blocks) and
prevDigest = tipDigest of the ledger it is about to be appended to, because
the handler constructs it from the freshly loaded ledger. -/
theorem c1_theorem (sha : String → String) (shaDoc : List Nat → String) (l : Ledger)
    (r : IssueReq) (b : Block) :
    appendBlock l b = ⟨l.blocks ++ [b]⟩
    ∧ (issuedBlock sha shaDoc l r).index = l.blocks.length
    ∧ (issuedBlock sha shaDoc l r).prevHash = last_block_hash l
    ∧ issueStep sha shaDoc l r = appendBlock l (issuedBlock sha shaDoc l r) := by
  exact ⟨rfl, rfl, rfl, rfl⟩

/-- C2, counterexample: save_ledger truncates the target file in place, so a
reader between the truncation and the completed write observes an empty
file, which is neither the previously persisted state nor the new one. -/
theorem c2_counterexample :
    save_ledger_observable (some (ledgerFileContent emptyLedger)) ledgerA (some "")
    ∧ some "" ≠ some (ledgerFileContent emptyLedger)
    ∧ some "" ≠ some (ledgerFileContent ledgerA) := by
  refine ⟨Or.inr ⟨"", ledgerFileContent ledgerA, by simp, rfl⟩, by decide, by decide⟩

/-- C2, amended: save_ledger writes the serialized ledger directly to the
target path — before the write the old content is observable, during it
every prefix of the new text is, and since the new text is never empty the
truncated intermediate state differs from the completed one; there is no
temporary file and no rename. -/
theorem c2_theorem (old : Option String) (l : Ledger) :
    save_ledger_observable old l old
    ∧ (∀ p q : String, ledgerFileContent l = p ++ q → save_ledger_observable old l (some p))
    ∧ ledgerFileContent l ≠ "" := by
  refine ⟨Or.inl rfl, fun p q hpq => Or.inr ⟨p, q, hpq, rfl⟩, ?_⟩
  intro hEq
  have hdata := congrArg String.data hEq
  rw [show (ledgerFileContent l).data
      = jdumpV (some 2) 0 (.jobj (.cons "blocks" (.jarr (blocksToJArr l.blocks)) .nil))
      from rfl] at hdata
  simp [jdumpV] at hdata

/-- C2, witness for the amended theorem at a concrete state: the truncated
empty file is an observable intermediate state of a save over old content. -/
theorem c2_witness : save_ledger_observable (some "x") emptyLedger (some "") :=
  (c2_theorem (some "x") emptyLedger).2.1 "" (ledgerFileContent emptyLedger) (by simp)

/-- C3: the chain validator (modelled from the spec, the source has none)
returns Valid on the empty ledger, returns Valid exactly when every block
passes its checks (genesis sentinel, recomputed digest, linkage, index)
against the expected prevDigest of its position, and on Invalid(atIndex,
reason) the named block is the first failing one — the walk starts at index
0 and stops at the first failure.  The reason vocabulary is the inductive
Reason = HashMismatch, LinkageBroken, IndexGap, GenesisInvalid, and
validate is a pure function of the ledger. -/
theorem c3_theorem (sha : String → String) (l : Ledger) :
    validate sha emptyLedger = .Valid
    ∧ (validate sha l = .Valid ↔ ∀ i (h : i < l.blocks.length),
        checkBlockAt sha (l.blocks.get ⟨i, h⟩) i (expectedPrevAt l i) = none)
    ∧ (∀ i r, validate sha l = .Invalid i r →
        ∃ h : i < l.blocks.length,
          checkBlockAt sha (l.blocks.get ⟨i, h⟩) i (expectedPrevAt l i) = some r
          ∧ ∀ j (hj : j < i),
              checkBlockAt sha (l.blocks.get ⟨j, by omega⟩) j (expectedPrevAt l j) = none) := by
  refine ⟨rfl, ?_, ?_⟩
  · have h := validateAux_valid sha l.blocks 0 ZERO_DIGEST
    unfold validate expectedPrevAt
    simpa using h
  · intro i r h
    obtain ⟨j, hjb, hieq, hcj, hprev⟩ := validateAux_invalid sha l.blocks 0 ZERO_DIGEST i r h
    have hij : i = j := by omega
    subst hij
    refine ⟨hjb, ?_, ?_⟩
    · have := hcj
      rw [show (0 : Nat) + i = i by omega] at this
      exact this
    · intro j2 hj2
      have := hprev j2 hj2
      rw [show (0 : Nat) + j2 = j2 by omega] at this
      exact this

/-- C3, witness: the validator accepts a concretely built two-block ledger. -/
theorem c3_witness : validate shaA ledgerB = .Valid :=
  (c3_theorem shaA ledgerB).2.1.mpr (by decide)

/-- C4: the blockDigest stored by make_block is the hash of the canonical
encoding of the six other fields (prevDigest included, blockDigest itself
excluded, since it is attached only after the dump is taken), and the
canonical encoding is insertion-order independent: any two orderings of the
same field set with distinct keys serialize to the same sorted-keys dump. -/
theorem c4_theorem (sha : String → String) (index : Nat)
    (ts issuer filename fileHash prevHash : String)
    (ps qs : List (String × JVal)) (hperm : ps.Perm qs) (hnd : (ps.map Prod.fst).Nodup) :
    (make_block sha index fileHash prevHash issuer filename ts).blockHash
      = sha (body_str index ts issuer filename fileHash prevHash)
    ∧ jdumpStr none (.jobj (objOfList (sortKeys ps)))
        = jdumpStr none (.jobj (objOfList (sortKeys qs))) := by
  exact ⟨rfl, by rw [sortKeys_perm_eq ps qs hperm hnd]⟩

/-- C4, witness: a two-field set encodes identically in either insertion
order. -/
theorem c4_witness :
    (make_block shaA 0 "H" "P" "I" "F" "T").blockHash = shaA (body_str 0 "T" "I" "F" "H" "P")
    ∧ jdumpStr none (.jobj (objOfList (sortKeys [("a", JVal.jint 1), ("b", JVal.jint 2)])))
        = jdumpStr none (.jobj (objOfList (sortKeys [("b", JVal.jint 2), ("a", JVal.jint 1)]))) :=
  c4_theorem shaA 0 "T" "I" "F" "H" "P"
    [("a", JVal.jint 1), ("b", JVal.jint 2)] [("b", JVal.jint 2), ("a", JVal.jint 1)]
    (List.Perm.swap ("b", JVal.jint 2) ("a", JVal.jint 1) []) (by decide)

/-- C5: every ledger reachable from the empty ledger by repeated
issue-then-append steps satisfies linkage (I1), the zero genesis sentinel
(I2) and index contiguity (I5). -/
theorem c5_theorem (sha : String → String) (shaDoc : List Nat → String) (l : Ledger)
    (hr : Reachable sha shaDoc l) :
    (∀ i (h : i < l.blocks.length), 0 < i →
        (l.blocks.get ⟨i, h⟩).prevHash = (l.blocks.get ⟨i - 1, by omega⟩).blockHash)
    ∧ (∀ h : 0 < l.blocks.length, (l.blocks.get ⟨0, h⟩).prevHash = ZERO_DIGEST)
    ∧ (∀ i (h : i < l.blocks.length), (l.blocks.get ⟨i, h⟩).index = i) := by
  obtain ⟨hidx, hgen, hlink, _⟩ := chain_inv sha shaDoc l hr
  exact ⟨hlink, hgen, hidx⟩

/-- C5, witness: the invariants at the concretely built two-block ledger. -/
theorem c5_witness : (ledgerB.blocks.get ⟨1, by decide⟩).index = 1 :=
  (c5_theorem shaA shaDocA ledgerB
    (Reachable.step _ _ (Reachable.step _ _ Reachable.empty))).2.2 1 (by decide)

/-- C6: on a reachable ledger with a collision-free hash, verify-by-payload
succeeds only with a block stored at exactly the position the payload names
whose blockDigest equals the payload digest, and a digest valid for some
other position than the named one never verifies (replay across positions
fails). -/
theorem c6_theorem (sha : String → String) (shaDoc : List Nat → String)
    (hinj : Function.Injective sha) (l : Ledger) (hr : Reachable sha shaDoc l) (obj : JObj) :
    (∀ blk, findByPayload l obj = some blk →
      ∃ i, ∃ h : i < l.blocks.length, jget obj "index" = some (.jint (i : Int))
        ∧ jget obj "blockHash" = some (.jstr blk.blockHash)
        ∧ l.blocks.get ⟨i, h⟩ = blk)
    ∧ (∀ (i j : Nat) (hj : j < l.blocks.length), i ≠ j →
        jget obj "index" = some (.jint (i : Int)) →
        jget obj "blockHash" = some (.jstr (l.blocks.get ⟨j, hj⟩).blockHash) →
        findByPayload l obj = none) := by
  obtain ⟨hidx, _, _, _⟩ := chain_inv sha shaDoc l hr
  constructor
  · intro blk hfind
    have hp := List.find?_some hfind
    have hmem := List.mem_of_find?_eq_some hfind
    obtain ⟨p, hpget⟩ := List.mem_iff_get.mp hmem
    rw [payloadMatches, Bool.and_eq_true, beq_iff_eq, beq_iff_eq] at hp
    obtain ⟨hp1, hp2⟩ := hp
    have hbidx : blk.index = p.val := by
      rw [← hpget]
      exact hidx p.val p.isLt
    refine ⟨p.val, p.isLt, ?_, hp2, ?_⟩
    · rw [hp1, hbidx]
    · rw [show (⟨p.val, p.isLt⟩ : Fin l.blocks.length) = p from rfl]
      exact hpget
  · intro i j hj hne hidxEq hbhEq
    match hfind : findByPayload l obj with
    | none => rfl
    | some blk =>
      exfalso
      have hp := List.find?_some hfind
      have hmem := List.mem_of_find?_eq_some hfind
      obtain ⟨p, hpget⟩ := List.mem_iff_get.mp hmem
      rw [payloadMatches, Bool.and_eq_true, beq_iff_eq, beq_iff_eq] at hp
      obtain ⟨hp1, hp2⟩ := hp
      rw [hidxEq] at hp1
      have hiblk : (i : Int) = (blk.index : Int) := by
        injection hp1 with hp1v
        injection hp1v
      have hieq : i = blk.index := by exact_mod_cast hiblk
      rw [hbhEq] at hp2
      have hjbh : (l.blocks.get ⟨j, hj⟩).blockHash = blk.blockHash := by
        injection hp2 with hp2v
        injection hp2v
      have hbidx : blk.index = p.val := by
        rw [← hpget]
        exact hidx p.val p.isLt
      have hpj : p.val = j := by
        apply reachable_hash_inj sha shaDoc hinj l hr p.val j p.isLt hj
        rw [hpget, ← hjbh]
      exact hne (by omega)

/-- C6, witness: on a concrete two-block ledger built with the identity
stand-in hash, the digest of block 0 replayed at index 1 does not verify. -/
theorem c6_witness :
    findByPayload ledgerI2 (.cons "index" (.jint 1)
      (.cons "blockHash" (.jstr (ledgerI2.blocks.get ⟨0, by decide⟩).blockHash) .nil)) = none :=
  (c6_theorem shaId shaDocA (fun _ _ h => h) ledgerI2
    (Reachable.step _ _ (Reachable.step _ _ Reachable.empty)) _).2 1 0 (by decide)
    (by decide) rfl rfl

/-- C7: verify-by-upload hashes the bytes and returns the matching block of
lowest index (every earlier block mismatches), and on a ledger built by
issue-then-append steps it finds a block exactly when some request issued
those bytes — assuming the document hash is collision-free across the
requests and the queried bytes. -/
theorem c7_theorem (sha : String → String) (shaDoc : List Nat → String) (l : Ledger)
    (raw : List Nat) (reqs : List IssueReq)
    (hnc : ∀ r ∈ reqs, shaDoc r.doc = shaDoc raw → r.doc = raw) :
    (∀ blk, findByDocument shaDoc l raw = some blk →
      blk.fileHash = shaDoc raw
      ∧ ∃ i, ∃ h : i < l.blocks.length, l.blocks.get ⟨i, h⟩ = blk
          ∧ ∀ j (hj : j < i), (l.blocks.get ⟨j, by omega⟩).fileHash ≠ shaDoc raw)
    ∧ ((findByDocument shaDoc (buildLedger sha shaDoc reqs) raw).isSome = true
        ↔ raw ∈ reqs.map IssueReq.doc) := by
  constructor
  · intro blk hfind
    obtain ⟨bls⟩ := l
    rw [findByDocument, List.find?_eq_some] at hfind
    obtain ⟨hpred, as, bs, hsplit, hearlier⟩ := hfind
    rw [beq_iff_eq] at hpred
    have hsplit2 : bls = as ++ blk :: bs := hsplit
    subst hsplit2
    refine ⟨hpred, as.length, by simp, ?_, ?_⟩
    · simp only [List.get_eq_getElem]
      rw [List.getElem_append_right (Nat.le_refl _)]
      simp
    · intro j hj
      simp only [List.get_eq_getElem]
      rw [List.getElem_append_left hj]
      have := hearlier _ (List.getElem_mem hj)
      simp only [Bool.not_eq_eq_eq_not, Bool.not_true, beq_eq_false_iff_ne] at this
      exact this
  · unfold findByDocument
    rw [List.find?_isSome]
    constructor
    · rintro ⟨blk, hmem, hpred⟩
      rw [beq_iff_eq] at hpred
      have hfh : blk.fileHash ∈ (buildLedger sha shaDoc reqs).blocks.map Block.fileHash :=
        List.mem_map_of_mem _ hmem
      rw [buildLedger_fileHashes] at hfh
      obtain ⟨r, hrmem, hrfh⟩ := List.mem_map.mp hfh
      have : r.doc = raw := hnc r hrmem (by rw [hrfh, hpred])
      rw [List.mem_map]
      exact ⟨r, hrmem, this⟩
    · intro hmem
      obtain ⟨r, hrmem, hrdoc⟩ := List.mem_map.mp hmem
      have hfh : shaDoc raw ∈ (buildLedger sha shaDoc reqs).blocks.map Block.fileHash := by
        rw [buildLedger_fileHashes, List.mem_map]
        exact ⟨r, hrmem, by rw [hrdoc]⟩
      obtain ⟨blk, hbmem, hbfh⟩ := List.mem_map.mp hfh
      exact ⟨blk, hbmem, by rw [beq_iff_eq, hbfh]⟩

/-- C7, witness: bytes issued once are found, at the concrete
one-request ledger. -/
theorem c7_witness :
    (findByDocument shaDocA (buildLedger shaA shaDocA [reqA]) [0]).isSome = true :=
  (c7_theorem shaA shaDocA emptyLedger [0] [reqA] (by decide)).2.mpr (by decide)

/-- C8, counterexample: text that parses as JSON but has none of the
expected shape (a blocks entry missing every field but a wrong index) is
returned by load_ledger unchecked — no StoreCorruptError, no shape
validation. -/
theorem c8_counterexample :
    parseJson "\x7b\"blocks\": [\x7b\"index\": 5\x7d]\x7d"
      = some (.jobj (.cons "blocks"
          (.jarr (.cons (.jobj (.cons "index" (.jint 5) .nil)) .nil)) .nil))
    ∧ ledgerOfJVal (.jobj (.cons "blocks"
          (.jarr (.cons (.jobj (.cons "index" (.jint 5) .nil)) .nil)) .nil)) = none
    ∧ load_ledger (some "\x7b\"blocks\": [\x7b\"index\": 5\x7d]\x7d")
        = .ok (.jobj (.cons "blocks"
            (.jarr (.cons (.jobj (.cons "index" (.jint 5) .nil)) .nil)) .nil),
          "\x7b\"blocks\": [\x7b\"index\": 5\x7d]\x7d") := by
  exact ⟨rfl, rfl, rfl⟩

/-- C8, amended: when no persisted state exists, load initializes and
persists the empty ledger before returning it (and that persisted text
parses back to the empty ledger); when the stored text is not valid JSON,
load fails with the JSON decode error; when it parses, the value is
returned unchecked whatever its shape. -/
theorem c8_theorem (s : String) (v : JVal) :
    load_ledger none = .ok (emptyLedgerJ, jdumpStr (some 2) emptyLedgerJ)
    ∧ (parseJson s = some v → load_ledger (some s) = .ok (v, s))
    ∧ (parseJson s = none → load_ledger (some s) = .error .jsonDecode)
    ∧ parseJson (jdumpStr (some 2) emptyLedgerJ) = some emptyLedgerJ := by
  refine ⟨rfl, ?_, ?_, parseJson_jdumpStr _ _⟩
  · intro h
    show (match parseJson s with
      | none => (Except.error LoadErr.jsonDecode : Except LoadErr (JVal × String))
      | some v => Except.ok (v, s)) = Except.ok (v, s)
    rw [h]
  · intro h
    show (match parseJson s with
      | none => (Except.error LoadErr.jsonDecode : Except LoadErr (JVal × String))
      | some v => Except.ok (v, s)) = Except.error LoadErr.jsonDecode
    rw [h]

/-- C8, witness: loading the persisted empty-ledger text returns it parsed. -/
theorem c8_witness :
    load_ledger (some (jdumpStr (some 2) emptyLedgerJ))
      = .ok (emptyLedgerJ, jdumpStr (some 2) emptyLedgerJ) :=
  (c8_theorem (jdumpStr (some 2) emptyLedgerJ) emptyLedgerJ).2.1 (by rfl)

/-- C9: verify-by-payload reads only the index and blockHash entries of the
parsed payload — two payloads agreeing there (whatever their fileHash entry
holds, present, absent or wrong) verify identically. -/
theorem c9_theorem (l : Ledger) (p1 p2 : JObj)
    (hidx : jget p1 "index" = jget p2 "index")
    (hbh : jget p1 "blockHash" = jget p2 "blockHash") :
    findByPayload l p1 = findByPayload l p2 := by
  unfold findByPayload
  congr 1
  funext blk
  unfold payloadMatches
  rw [hidx, hbh]

/-- C9, witness: a payload with a wrong fileHash entry and one with no
fileHash entry verify identically on a concrete ledger. -/
theorem c9_witness :
    findByPayload ledgerA (.cons "index" (.jint 0)
      (.cons "blockHash" (.jstr "h") (.cons "fileHash" (.jstr "WRONG") .nil)))
    = findByPayload ledgerA (.cons "index" (.jint 0) (.cons "blockHash" (.jstr "h") .nil)) :=
  c9_theorem ledgerA _ _ rfl rfl

/-- C10: persistence round-trip — for every ledger of the persisted shape,
loading immediately after saving returns exactly the value saved (the
serialized text parses back to the saved JSON value). -/
theorem c10_theorem (l : Ledger) :
    load_ledger (some (ledgerFileContent l)) = .ok (ledgerToJVal l, ledgerFileContent l) := by
  show (match parseJson (jdumpStr (some 2) (ledgerToJVal l)) with
    | none => (Except.error LoadErr.jsonDecode : Except LoadErr (JVal × String))
    | some v => Except.ok (v, ledgerFileContent l)) = .ok (ledgerToJVal l, ledgerFileContent l)
  rw [parseJson_jdumpStr (some 2) (ledgerToJVal l)]

end SkillChain
